import Mathlib

/-!
Verification development for the ccbox path-translation core
(src/native/ccbox-fuse.c and src/native/fakepath.c), as a shallow
embedding over byte buffers modelled as `List Char` and filesystem
state modelled explicitly.  Every definition follows the corresponding
C function; machine details that matter (first-match loops, `strlen`
truncation at NUL bytes, the fixed 4096-byte path buffer, the 4 MiB
transform headroom with its overflow fallback, the ring-buffer caches)
are reproduced.
-/

set_option maxRecDepth 20000

namespace Ccbox

/-- ASCII `isalpha` (the process runs in the C locale). -/
def asciiIsAlpha (c : Char) : Bool :=
  ('a' ≤ c && c ≤ 'z') || ('A' ≤ c && c ≤ 'Z')

/-- ASCII `tolower` (C locale). -/
def asciiToLower (c : Char) : Char :=
  if 'A' ≤ c && c ≤ 'Z' then Char.ofNat (c.toNat + 32) else c

/-- C `isspace`: space, tab, newline, vertical tab, form feed, carriage return. -/
def asciiIsSpace (c : Char) : Bool :=
  c == ' ' || c == '\t' || c == '\n' || c == '\x0b' || c == '\x0c' || c == '\r'

/-- The four JSON delimiters the content transform stops at:
`"` `,` `}` `]` (ccbox-fuse.c, `extract_json_path` and the copy loops). -/
def isJsonDelim (c : Char) : Bool :=
  c == '"' || c == ',' || c == '}' || c == ']'

/-- `MAX_PATH_LEN` from ccbox-fuse.c. -/
def MAX_PATH_LEN : Nat := 4096

/-- `TRANSFORM_HEADROOM` from ccbox-fuse.c. -/
def TRANSFORM_HEADROOM : Nat := 4 * 1024 * 1024

/-- `RCACHE_MAX_SIZE` from ccbox-fuse.c. -/
def RCACHE_MAX_SIZE : Nat := 4 * 1024 * 1024

/-- `NEG_CACHE_TTL` from ccbox-fuse.c (seconds). -/
def NEG_CACHE_TTL : Nat := 2

/-- `NEG_CACHE_SIZE` from ccbox-fuse.c. -/
def NEG_CACHE_SIZE : Nat := 64

/-- A host↔container prefix pair (`PathMapping` in ccbox-fuse.c).
`from_` is the host form (normalized to forward slashes), `to` the
container form; `drive`/`is_unc`/`is_wsl` are the kind tags computed by
`add_mapping` ('\x00' plays the role of C's 0 drive sentinel). -/
structure PathMapping where
  from_ : List Char
  to_ : List Char
  drive : Char
  is_unc : Bool
  is_wsl : Bool
deriving DecidableEq, Repr

/-- A directory-name pair (`DirMapping` in ccbox-fuse.c). -/
structure DirMapping where
  container_name : List Char
  native_name : List Char
deriving DecidableEq, Repr

/-- The immutable startup configuration: the `mappings` and
`dir_mappings` tables of ccbox-fuse.c. -/
structure Config where
  mappings : List PathMapping
  dirMappings : List DirMapping
deriving DecidableEq, Repr

/-- Strip trailing '/' while more than one character remains
(the `while (len > 1 && norm[len-1] == '/')` loop of `normalize_path`),
acting on the reversed list. -/
def stripTrailingRev : List Char → List Char
  | '/' :: c :: t => stripTrailingRev (c :: t)
  | l => l

/-- `normalize_path` from ccbox-fuse.c: backslashes to forward slashes,
trailing slashes stripped (keeping at least one character), case kept. -/
def normalize_path (l : List Char) : List Char :=
  (stripTrailingRev ((l.map (fun c => if c == '\\' then '/' else c)).reverse)).reverse

/-- `add_mapping` from ccbox-fuse.c: normalize both sides and compute
the drive / UNC / WSL kind tags from the normalized host form. -/
def mk_mapping (f t : List Char) : PathMapping :=
  let from_ := normalize_path f
  let to_ := normalize_path t
  let drive0 : Char :=
    match from_ with
    | c0 :: ':' :: _ => if c0 == '\x00' then '\x00' else asciiToLower c0
    | _ => '\x00'
  let is_unc : Bool := match from_ with | '/' :: '/' :: _ => true | _ => false
  let is_wsl : Bool :=
    match from_ with
    | '/' :: 'm' :: 'n' :: 't' :: '/' :: c5 :: _ => asciiIsAlpha c5
    | _ => false
  let drive : Char :=
    if is_wsl then
      match from_ with
      | _ :: _ :: _ :: _ :: _ :: c5 :: _ => asciiToLower c5
      | _ => '\x00'
    else drive0
  { from_ := from_, to_ := to_, drive := drive, is_unc := is_unc, is_wsl := is_wsl }

/-- Truncation at the first NUL byte: models C's `strlen`-bounded copy of
the remainder (`strlen(remainder)` in the transform functions). -/
def cStrlenTrunc (l : List Char) : List Char := l.takeWhile (fun c => c != '\x00')

/-- `extract_json_path` from ccbox-fuse.c.  `bound` is the remaining
capacity of the 4096-byte `pathbuf` (`pi < pathbuf_size - 1`, so 4095 at
the call sites).  Stops at a JSON delimiter or end of buffer; a
JSON-escaped `\\` pair and a single `\` both become `/`.  Returns the
extracted (normalized) path and the rest of the buffer from the updated
position `ti`. -/
def extract_json_path : Nat → List Char → (List Char × List Char)
  | _, [] => ([], [])
  | 0, l => ([], l)
  | b + 1, c :: t =>
    if isJsonDelim c then ([], c :: t)
    else if c == '\\' then
      if t.headD '\x00' == '\\' then
        let r := extract_json_path b t.tail; ('/' :: r.1, r.2)
      else
        let r := extract_json_path b t; ('/' :: r.1, r.2)
    else
      let r := extract_json_path b t; (c :: r.1, r.2)

/-- The remainder-copy loop of `transform_to_container_alloc` Case 3:
copy until `"`, `,`, `}`, `]` or whitespace.  Returns copied bytes and
the rest. -/
def copyRemC : List Char → (List Char × List Char)
  | [] => ([], [])
  | c :: t =>
    if isJsonDelim c || asciiIsSpace c then ([], c :: t)
    else let r := copyRemC t; (c :: r.1, r.2)

/-- Case 1 of `transform_to_container_alloc`: a drive-letter pattern
`X:` (with at least one byte after the colon, `i + 2 < len`).  Extracts
the path body and takes the first drive-kind mapping with the same
lowercased drive letter whose `from` (drive prefix stripped) prefixes
the extracted body.  Returns the emitted bytes and the rest of the
buffer on a match. -/
def case1? (cfg : Config) : List Char → Option (List Char × List Char)
  | [] => none
  | c0 :: t =>
    if asciiIsAlpha c0 && t.headD '\x00' == ':' && !t.tail.isEmpty then
      let er := extract_json_path (MAX_PATH_LEN - 1) t.tail
      match cfg.mappings.find? (fun m =>
          m.drive == asciiToLower c0 && !m.is_unc && !m.is_wsl &&
          (m.from_.drop 2).isPrefixOf er.1) with
      | some m => some (m.to_ ++ cStrlenTrunc (er.1.drop (m.from_.length - 2)), er.2)
      | none => none
    else none

/-- Case 2 of `transform_to_container_alloc`: a JSON-escaped UNC prefix
`\\`.  Extraction starts at the backslashes; the first UNC-kind mapping
whose `from` prefixes the normalized body wins. -/
def case2? (cfg : Config) : List Char → Option (List Char × List Char)
  | [] => none
  | c :: t =>
    if c == '\\' && t.headD '\x00' == '\\' then
      let er := extract_json_path (MAX_PATH_LEN - 1) (c :: t)
      match cfg.mappings.find? (fun m => m.is_unc && m.from_.isPrefixOf er.1) with
      | some m => some (m.to_ ++ cStrlenTrunc (er.1.drop m.from_.length), er.2)
      | none => none
    else none

/-- The boundary accepted after a matched WSL prefix in Case 3
(`'\0'`, `/`, `"`, `,`, `}` — note `]` is not in this set in the source). -/
def wslBoundary (c : Char) : Bool :=
  c == '\x00' || c == '/' || c == '"' || c == ',' || c == '}'

def nthChar (l : List Char) (k : Nat) : Char := (l.drop k).headD '\x00'

/-- Case 3 of `transform_to_container_alloc`: a literal `/mnt/X` prefix
with `X` alphabetic and `i + 6 < len` (the conjuncts of the C guard are
value-equal in any order; the length test is placed last here).  The
first WSL-kind mapping whose `from` prefixes the raw buffer and whose
boundary byte is accepted wins; the remainder is copied up to a
delimiter or whitespace. -/
def case3? (cfg : Config) (l : List Char) : Option (List Char × List Char) :=
  if nthChar l 0 == '/' && nthChar l 1 == 'm' && nthChar l 2 == 'n' &&
     nthChar l 3 == 't' && nthChar l 4 == '/' && asciiIsAlpha (nthChar l 5) &&
     decide (6 < l.length) then
    match cfg.mappings.find? (fun m =>
        m.is_wsl && m.from_.isPrefixOf l &&
        wslBoundary (((l.drop m.from_.length).headD '\x00'))) with
    | some m =>
      let r := copyRemC (l.drop m.from_.length)
      some (m.to_ ++ r.1, r.2)
    | none => none
  else none

/-- The scanning loop of `transform_to_container_alloc`: walks the
buffer (stopping at a NUL byte, like `while (i < len && buf[i])`),
trying Case 1, 2, 3 at each position and copying the byte otherwise.
Returns the produced bytes and the `any_transform` flag.  `fuel` bounds
the recursion; every iteration consumes at least one byte, so fuel equal
to the buffer length is always sufficient. -/
def tcScan (cfg : Config) : Nat → List Char → (List Char × Bool)
  | 0, _ => ([], false)
  | _ + 1, [] => ([], false)
  | fuel + 1, c :: t =>
    if c == '\x00' then ([], false)
    else match case1? cfg (c :: t) with
    | some (em, rest) => let r := tcScan cfg fuel rest; (em ++ r.1, true)
    | none =>
      match case2? cfg (c :: t) with
      | some (em, rest) => let r := tcScan cfg fuel rest; (em ++ r.1, true)
      | none =>
        match case3? cfg (c :: t) with
        | some (em, rest) => let r := tcScan cfg fuel rest; (em ++ r.1, true)
        | none => let r := tcScan cfg fuel t; (c :: r.1, r.2)

/-- Boundary accepted after a matched container prefix in
`transform_to_host_alloc` (`'\0'`, `/`, `"`, `,`, `}`, `]`). -/
def thBoundary (c : Char) : Bool :=
  c == '\x00' || c == '/' || c == '"' || c == ',' || c == '}' || c == ']'

/-- First mapping whose container form `to` prefixes the buffer at the
current position with an accepted boundary byte (the write-direction
match loop). -/
def findToMatch (maps : List PathMapping) (l : List Char) : Option PathMapping :=
  maps.find? (fun m =>
    m.to_.isPrefixOf l && thBoundary ((l.drop m.to_.length).headD '\x00'))

/-- `use_backslash` in `transform_to_host_alloc`: the original host form
is a Windows drive path (`from[1] == ':'`). -/
def useBackslashOf : List Char → Bool
  | _ :: ':' :: _ => true
  | _ => false

/-- `is_unc_orig` in `transform_to_host_alloc`. -/
def isUncOrigOf : List Char → Bool
  | '/' :: '/' :: _ => true
  | _ => false

/-- Re-emission of one byte on the write path: a forward slash becomes
the JSON-escape pair `\\` when the host form is a drive or UNC path. -/
def escSlash (esc : Bool) (c : Char) : List Char :=
  if esc && c == '/' then ['\\', '\\'] else [c]

/-- `escSlash` mapped over a byte list. -/
def escList (esc : Bool) : List Char → List Char
  | [] => []
  | c :: t => escSlash esc c ++ escList esc t

/-- The remainder-copy loop of `transform_to_host_alloc`: copy until a
JSON delimiter or whitespace, re-escaping slashes per `esc`. -/
def copyRemH (esc : Bool) : List Char → (List Char × List Char)
  | [] => ([], [])
  | c :: t =>
    if isJsonDelim c || asciiIsSpace c then ([], c :: t)
    else let r := copyRemH esc t; (escSlash esc c ++ r.1, r.2)

/-- The scanning loop of `transform_to_host_alloc`: at each position the
first mapping whose `to` prefixes the buffer (with boundary) is replaced
by the original host form with JSON-escaped separators, and the
remainder is copied with the same separator style. -/
def thScan (cfg : Config) : Nat → List Char → (List Char × Bool)
  | 0, _ => ([], false)
  | _ + 1, [] => ([], false)
  | fuel + 1, c :: t =>
    match findToMatch cfg.mappings (c :: t) with
    | some m =>
      let esc := useBackslashOf m.from_ || isUncOrigOf m.from_
      let r0 := copyRemH esc ((c :: t).drop m.to_.length)
      let r := thScan cfg fuel r0.2
      (escList esc m.from_ ++ r0.1 ++ r.1, true)
    | none => let r := thScan cfg fuel t; (c :: r.1, r.2)

/-- Boundary accepted after a matched dir-mapping segment in
`apply_dirmap` (`'\0'`, `/`, `\`, `"`, `,`, `}`, `]`). -/
def adBoundary (c : Char) : Bool :=
  c == '\x00' || c == '/' || c == '\\' || c == '"' || c == ',' || c == '}' || c == ']'

/-- The allocation size of `apply_dirmap`: input length + 256 plus eight
times each mapping's growth. -/
def admAlloc (dms : List DirMapping) (toC : Bool) (len : Nat) : Nat :=
  len + 256 + 8 * (dms.map (fun dm =>
    if toC then dm.container_name.length - dm.native_name.length
    else dm.native_name.length - dm.container_name.length)).sum

/-- The scanning loop of `apply_dirmap`: after a `/` or JSON-escaped
`\\` separator, the first dir mapping whose find-side name follows with
an accepted boundary is replaced; otherwise one byte is copied. -/
def adScan (dms : List DirMapping) (toC : Bool) : Nat → List Char → (List Char × Bool)
  | 0, _ => ([], false)
  | _ + 1, [] => ([], false)
  | fuel + 1, c :: t =>
    let sep : Option (List Char × List Char) :=
      if c == '/' then some (['/'], t)
      else match c, t with
        | '\\', '\\' :: t2 => some (['\\', '\\'], t2)
        | _, _ => none
    match sep with
    | some (sepB, after) =>
      match dms.find? (fun dm =>
          let find := if toC then dm.native_name else dm.container_name
          find.isPrefixOf after && adBoundary ((after.drop find.length).headD '\x00')) with
      | some dm =>
        let find := if toC then dm.native_name else dm.container_name
        let repl := if toC then dm.container_name else dm.native_name
        let r := adScan dms toC fuel (after.drop find.length)
        (sepB ++ repl ++ r.1, true)
      | none => let r := adScan dms toC fuel t; (c :: r.1, r.2)
    | none => let r := adScan dms toC fuel t; (c :: r.1, r.2)

/-- `apply_dirmap` from ccbox-fuse.c.  `none` models the C function
returning NULL (no dir mappings, no change, allocation failure treated
as none here, or overflow of its allocation — the per-step overflow
checks fire exactly when the produced length reaches the allocation,
since the output grows monotonically). -/
def apply_dirmap (cfg : Config) (toC : Bool) (buf : List Char) : Option (List Char) :=
  if cfg.dirMappings.isEmpty || buf.isEmpty then none
  else
    let r := adScan cfg.dirMappings toC buf.length buf
    if !r.2 then none
    else if admAlloc cfg.dirMappings toC buf.length ≤ r.1.length then none
    else some r.1

/-- `transform_to_container_alloc` from ccbox-fuse.c.  `none` models the
C function returning NULL: empty input, no mappings, no transform
performed, or overflow past `len + TRANSFORM_HEADROOM` (the per-put
checks fire exactly when the final produced length reaches the
allocation, since the work buffer grows monotonically). -/
def transform_to_container_alloc (cfg : Config) (buf : List Char) : Option (List Char) :=
  if buf.isEmpty || cfg.mappings.isEmpty then none
  else
    let r := tcScan cfg buf.length buf
    if !r.2 then none
    else if buf.length + TRANSFORM_HEADROOM ≤ r.1.length then none
    else match apply_dirmap cfg true r.1 with
      | some d => some d
      | none => some r.1

/-- `transform_to_host_alloc` from ccbox-fuse.c (same conventions). -/
def transform_to_host_alloc (cfg : Config) (buf : List Char) : Option (List Char) :=
  if buf.isEmpty || cfg.mappings.isEmpty then none
  else
    let r := thScan cfg buf.length buf
    if !r.2 then none
    else if buf.length + TRANSFORM_HEADROOM ≤ r.1.length then none
    else match apply_dirmap cfg false r.1 with
      | some d => some d
      | none => some r.1

/-- The effective read-direction content transform: callers use the
original buffer when the allocating transform returns NULL. -/
def toContainerEff (cfg : Config) (buf : List Char) : List Char :=
  (transform_to_container_alloc cfg buf).getD buf

/-- The effective write-direction content transform. -/
def toHostEff (cfg : Config) (buf : List Char) : List Char :=
  (transform_to_host_alloc cfg buf).getD buf

end Ccbox

namespace Ccbox

/-! ### Extension filter (`needs_transform`) -/

/-- The default extension set (`parse_extensions` with no env var). -/
def defaultExtensions : List (List Char) := [".json".toList, ".jsonl".toList]

/-- `strrchr(path, '.')` as the suffix starting at the last dot. -/
def lastDotSuffix : List Char → Option (List Char)
  | [] => none
  | c :: t =>
    match lastDotSuffix t with
    | some s => some s
    | none => if c == '.' then some (c :: t) else none

/-- `strcasecmp(a, b) == 0` for NUL-free ASCII strings. -/
def strCaseEq (a b : List Char) : Bool :=
  a.map asciiToLower == b.map asciiToLower

/-- `needs_transform` from ccbox-fuse.c: a file needs content
transformation iff mappings and extensions are configured and the
suffix from the last dot matches one of the extensions
case-insensitively. -/
def needs_transform (cfg : Config) (exts : List (List Char)) (path : List Char) : Bool :=
  if cfg.mappings.isEmpty || exts.isEmpty then false
  else match lastDotSuffix path with
    | none => false
    | some dot => exts.any (fun e => strCaseEq dot e)

/-! ### Caches

Backing paths are opaque keys modelled as `String`; monotonic time is a
`Nat` of seconds.  `NegCacheEntry.path` truncation at `MAX_PATH_LEN - 1`
is not modelled (all paths considered are shorter). -/

/-- `NegCacheEntry`. -/
structure NegCacheEntry where
  path : String
  expires : Nat
deriving DecidableEq, Repr

/-- The negative cache: a 64-slot ring (`g_neg_cache`, `g_neg_cache_idx`). -/
structure NegState where
  entries : List NegCacheEntry
  idx : Nat
deriving DecidableEq, Repr

/-- `neg_cache_lookup`: hit iff some entry has `expires > now` and the
same path. -/
def neg_cache_lookup (st : NegState) (now : Nat) (fpath : String) : Bool :=
  st.entries.any (fun e => decide (now < e.expires) && e.path == fpath)

/-- `neg_cache_insert`: overwrite the ring slot `idx % NEG_CACHE_SIZE`
with `(fpath, now + NEG_CACHE_TTL)` and bump the ring index. -/
def neg_cache_insert (st : NegState) (now : Nat) (fpath : String) : NegState :=
  { entries := st.entries.set (st.idx % NEG_CACHE_SIZE) ⟨fpath, now + NEG_CACHE_TTL⟩,
    idx := st.idx + 1 }

/-- `neg_cache_invalidate`: zero the expiry of every entry with this path. -/
def neg_cache_invalidate (st : NegState) (fpath : String) : NegState :=
  { st with entries := st.entries.map (fun e =>
      if e.path == fpath then { e with expires := 0 } else e) }

/-- `RCacheEntry`; `data = none` models a NULL `data` pointer (free slot
or invalidated entry). -/
structure RCacheEntry where
  path : String
  mtime_sec : Nat
  mtime_nsec : Nat
  data : Option (List Char)
  seq : Nat
deriving DecidableEq, Repr

/-- The read cache (`g_rcache`, `g_rcache_seq`). -/
structure RCacheState where
  entries : List RCacheEntry
  seq : Nat
deriving DecidableEq, Repr

/-- The scan inside `rcache_lookup`: find the first live entry with the
given path and mtime, setting its LRU sequence to `seq'`. -/
def rlookupGo (seq' : Nat) : List RCacheEntry → String → Nat → Nat →
    (Option (List Char) × List RCacheEntry)
  | [], _, _, _ => (none, [])
  | e :: t, p, ms, mns =>
    if e.data.isSome && e.mtime_sec == ms && e.mtime_nsec == mns && e.path == p then
      (e.data, { e with seq := seq' } :: t)
    else
      let r := rlookupGo seq' t p ms mns
      (r.1, e :: r.2)

/-- `rcache_lookup`: on a hit the entry's sequence is bumped to
`++g_rcache_seq`. -/
def rcache_lookup (rc : RCacheState) (p : String) (ms mns : Nat) :
    Option (List Char) × RCacheState :=
  let r := rlookupGo (rc.seq + 1) rc.entries p ms mns
  match r.1 with
  | some d => (some d, { entries := r.2, seq := rc.seq + 1 })
  | none => (none, rc)

/-- The LRU-slot scan of `rcache_insert`: slot 0 to start, then from
index 1 the first free slot wins outright, otherwise the first strictly
smaller sequence. -/
def rcacheLruGo : List RCacheEntry → Nat → Nat → Nat → Nat
  | [], _, lru, _ => lru
  | e :: t, i, lru, mn =>
    if e.data.isNone then i
    else if e.seq < mn then rcacheLruGo t (i + 1) i e.seq
    else rcacheLruGo t (i + 1) lru mn

/-- `rcache_insert`: skip files above `RCACHE_MAX_SIZE`, else overwrite
the LRU slot (allocation assumed to succeed). -/
def rcache_insert (rc : RCacheState) (p : String) (ms mns : Nat) (data : List Char) :
    RCacheState :=
  if RCACHE_MAX_SIZE < data.length then rc
  else
    let lru := match rc.entries with
      | [] => 0
      | e0 :: rest => rcacheLruGo rest 1 0 e0.seq
    { entries := rc.entries.set lru
        ⟨p, ms, mns, some data, rc.seq + 1⟩,
      seq := rc.seq + 1 }

/-- `rcache_invalidate`: free the data of every entry with this path. -/
def rcache_invalidate (rc : RCacheState) (fpath : String) : RCacheState :=
  { rc with entries := rc.entries.map (fun e =>
      if e.data.isSome && e.path == fpath then { e with data := none } else e) }

/-- `SCACHE_SLOTS` from ccbox-fuse.c. -/
def SCACHE_SLOTS : Nat := 512

/-- `SCacheEntry`. -/
structure SCacheEntry where
  path : String
  mtime_sec : Nat
  mtime_nsec : Nat
  active : Bool
deriving DecidableEq, Repr

/-- The skip cache (`g_scache` plus the static round-robin index). -/
structure SCacheState where
  entries : List SCacheEntry
  s_idx : Nat
deriving DecidableEq, Repr

/-- `scache_lookup`. -/
def scache_lookup (sc : SCacheState) (fpath : String) (ms mns : Nat) : Bool :=
  sc.entries.any (fun e =>
    e.active && e.mtime_sec == ms && e.mtime_nsec == mns && e.path == fpath)

/-- `scache_insert`: first inactive slot, else round-robin. -/
def scache_insert (sc : SCacheState) (fpath : String) (ms mns : Nat) : SCacheState :=
  let firstFree := sc.entries.findIdx? (fun e => !e.active)
  match firstFree with
  | some slot =>
    { sc with entries := sc.entries.set slot ⟨fpath, ms, mns, true⟩ }
  | none =>
    { entries := sc.entries.set (sc.s_idx % SCACHE_SLOTS) ⟨fpath, ms, mns, true⟩,
      s_idx := sc.s_idx + 1 }

/-- `scache_invalidate`. -/
def scache_invalidate (sc : SCacheState) (fpath : String) : SCacheState :=
  { sc with entries := sc.entries.map (fun e =>
      if e.active && e.path == fpath then { e with active := false } else e) }

/-- The three process-global caches together. -/
structure Caches where
  neg : NegState
  rc : RCacheState
  sc : SCacheState
deriving DecidableEq, Repr

/-- A live ReadCache entry for a path. -/
def rcacheHolds (rc : RCacheState) (fpath : String) : Bool :=
  rc.entries.any (fun e => e.data.isSome && e.path == fpath)

/-- A live SkipCache entry for a path. -/
def scacheHolds (sc : SCacheState) (fpath : String) : Bool :=
  sc.entries.any (fun e => e.active && e.path == fpath)

/-! ### Filesystem operations (ccbox-fuse.c dispatcher)

Operations are modelled at the backing-path level: `fpath` is the
result of `get_source_path` (source_dir + directory-name translation),
and the file argument is the backing file's byte content.  All backing
calls are modelled as succeeding unless stated; uninitialized heap
bytes are an explicit `junk` parameter. -/

/-- What `lstat`/`fstat` returns for an existing file. -/
structure StatInfo where
  isReg : Bool
  size : Nat
  mtime_sec : Nat
  mtime_nsec : Nat
deriving DecidableEq, Repr

/-- Result of `ccbox_getattr`: FUSE return code, the reported size,
whether a backing `lstat` was performed, and the updated caches. -/
structure GetattrOut where
  res : Int
  size : Nat
  didStat : Bool
  neg : NegState
  rc : RCacheState
deriving Repr

/-- `ccbox_getattr`: negative-cache check first (no backing stat on a
hit); on backing ENOENT insert into the negative cache; for transform-
eligible regular files report the cached transformed length when the
read cache holds the current mtime.  `lstatB` returning `none` models
`lstat` failing with ENOENT (the only failure inserted into the cache;
other errno values are out of scope here). -/
def ccbox_getattr (cfg : Config) (exts : List (List Char)) (neg : NegState)
    (rc : RCacheState) (now : Nat) (lstatB : String → Option StatInfo)
    (path : List Char) (fpath : String) : GetattrOut :=
  if neg_cache_lookup neg now fpath then
    ⟨-2, 0, false, neg, rc⟩
  else
    match lstatB fpath with
    | none => ⟨-2, 0, true, neg_cache_insert neg now fpath, rc⟩
    | some st =>
      if st.isReg && needs_transform cfg exts path && decide (0 < st.size) then
        let lk := rcache_lookup rc fpath st.mtime_sec st.mtime_nsec
        match lk.1 with
        | some data => ⟨0, data.length, true, neg, lk.2⟩
        | none => ⟨0, st.size, true, neg, lk.2⟩
      else ⟨0, st.size, true, neg, rc⟩

/-- Plain `pwrite` at an offset on a POSIX file: the hole left when the
offset is past EOF reads back as zero bytes. -/
def plainPwrite (old : List Char) (buf : List Char) (off : Nat) : List Char :=
  let total := max (off + buf.length) old.length
  let base := old ++ List.replicate (total - old.length) '\x00'
  base.take off ++ buf ++ base.drop (off + buf.length)

/-- The read-merge-write buffer of the non-zero-offset transformed
write in `ccbox_write`: `merged = malloc(total)` is filled with the
current file content by `pread`; bytes between the file size and the
write offset are *uninitialized heap memory* (the `memset` only covers
a short read), modelled by the `junk` function; the transformed bytes
are overlaid at `offset`; the file is rewritten to the whole buffer and
truncated to `total`. -/
def mergeBuffer (old : List Char) (t : List Char) (off : Nat) (junk : Nat → Char) :
    List Char :=
  let filesize := old.length
  let total := max (off + t.length) filesize
  let base := old ++ (List.range (total - filesize)).map junk
  base.take off ++ t ++ base.drop (off + t.length)

/-- Result of `ccbox_write`: the new backing content, the FUSE return
value, and the updated caches. -/
structure WriteOut where
  content : List Char
  ret : Int
  rc : RCacheState
  sc : SCacheState
deriving Repr

/-- `ccbox_write`.  `needsT` is the transform bit of the packed file
handle; `pwriteOk` tells whether the backing `pwrite` succeeds
(`errnoV` is the errno propagated on failure).  Read cache and skip
cache are invalidated up front; a changed transformed buffer is written
whole at offset 0 or merged under the advisory lock otherwise; in both
transformed branches a successful write returns the caller-supplied
`size`, not the transformed length. -/
def ccbox_write (cfg : Config) (needsT : Bool) (old : List Char) (junk : Nat → Char)
    (ca : Caches) (fpath : String) (buf : List Char) (offset : Nat)
    (pwriteOk : Bool) (errnoV : Nat) : WriteOut :=
  let rc' := rcache_invalidate ca.rc fpath
  let sc' := scache_invalidate ca.sc fpath
  if needsT then
    match transform_to_host_alloc cfg buf with
    | some t =>
      if offset == 0 then
        if pwriteOk then ⟨t, Int.ofNat buf.length, rc', sc'⟩
        else ⟨old, -(Int.ofNat errnoV), rc', sc'⟩
      else
        if pwriteOk then ⟨mergeBuffer old t offset junk, Int.ofNat buf.length, rc', sc'⟩
        else ⟨old, -(Int.ofNat errnoV), rc', sc'⟩
    | none =>
      if pwriteOk then ⟨plainPwrite old buf offset, Int.ofNat buf.length, rc', sc'⟩
      else ⟨old, -(Int.ofNat errnoV), rc', sc'⟩
  else
    if pwriteOk then ⟨plainPwrite old buf offset, Int.ofNat buf.length, rc', sc'⟩
    else ⟨old, -(Int.ofNat errnoV), rc', sc'⟩

/-- `ccbox_truncate` on the caches and content: only `rcache_invalidate`
is called (the skip cache and negative cache are left untouched by the
source); the backing truncate zero-extends when growing. -/
def ccbox_truncate (ca : Caches) (fpath : String) (content : List Char) (size : Nat) :
    Caches × List Char :=
  ({ ca with rc := rcache_invalidate ca.rc fpath },
   content.take size ++ List.replicate (size - content.length) '\x00')

/-- `ccbox_unlink` on the caches: only `rcache_invalidate` is called. -/
def ccbox_unlink (ca : Caches) (fpath : String) : Caches :=
  { ca with rc := rcache_invalidate ca.rc fpath }

/-- Result of `ccbox_rename`. -/
structure RenameOut where
  files : String → Option (List Char)
  caches : Caches
  res : Int

/-- `ccbox_rename` (flags = 0): invalidate the negative cache for the
destination and read/skip caches for both backing paths, perform the
backing rename, then — when the destination extension is transformable
but the source's is not — rewrite the renamed regular file in place
with the write-direction transform, truncating to the transformed
length, but only for non-empty files of at most `RCACHE_MAX_SIZE`
bytes. -/
def ccbox_rename (cfg : Config) (exts : List (List Char))
    (files : String → Option (List Char)) (ca : Caches)
    (from_ to_ : List Char) (ff ft : String) : RenameOut :=
  let ca' : Caches :=
    { neg := neg_cache_invalidate ca.neg ft,
      rc := rcache_invalidate (rcache_invalidate ca.rc ff) ft,
      sc := scache_invalidate (scache_invalidate ca.sc ff) ft }
  match files ff with
  | none => ⟨files, ca', -2⟩
  | some content =>
    let files1 : String → Option (List Char) := fun p =>
      if p = ft then some content else if p = ff then none else files p
    let files2 : String → Option (List Char) :=
      if !cfg.mappings.isEmpty && needs_transform cfg exts to_ &&
         !needs_transform cfg exts from_ then
        if 0 < content.length && content.length ≤ RCACHE_MAX_SIZE then
          match transform_to_host_alloc cfg content with
          | some t => fun p => if p = ft then some t else files1 p
          | none => files1
        else files1
      else files1
    ⟨files2, ca', 0⟩

/-! ### Directory enumeration (`ccbox_readdir`) -/

/-- One backing directory entry (name and whether it is a directory,
from `d_type`/`lstat`). -/
structure DirEnt where
  name : List Char
  isDir : Bool
deriving DecidableEq, Repr

/-- The sibling `lstat` of the dedup check: whether the backing
directory contains an entry of this name that is a directory. -/
def lstatIsDirIn (listing : List DirEnt) (n : List Char) : Bool :=
  match listing.find? (fun e => e.name == n) with
  | some e => e.isDir
  | none => false

/-- The per-entry mapping loop of `ccbox_readdir`: the first dir
mapping whose native name equals the entry renames it to the container
name and stops; the first whose container name equals the entry stops
and suppresses it iff the native-name sibling exists and is a
directory; otherwise the entry passes through. -/
def visibleName (dms : List DirMapping) (lstatDir : List Char → Bool) :
    List Char → Option (List Char)
  | n =>
    match dms with
    | [] => some n
    | dm :: rest =>
      if n == dm.native_name then some dm.container_name
      else if n == dm.container_name then
        (if lstatDir dm.native_name then none else some n)
      else visibleName rest lstatDir n

/-- `ccbox_readdir` over a backing listing: each entry is renamed or
suppressed by `visibleName` and forwarded with its stat type. -/
def ccbox_readdir (dms : List DirMapping) (listing : List DirEnt) :
    List (List Char × Bool) :=
  listing.filterMap (fun e =>
    (visibleName dms (lstatIsDirIn listing) e.name).map (fun n => (n, e.isDir)))

/-! ### Interposition layer (fakepath.c) -/

/-- The lazily initialized prefix pair of fakepath.c
(`g_windows_path` from `CCBOX_WIN_ORIGINAL_PATH`, `g_container_path`
from the real `getcwd`, both with a trailing separator stripped). -/
structure FakepathState where
  g_windows_path : List Char
  g_container_path : List Char
deriving DecidableEq, Repr

/-- `strncasecmp(a, b, n) == 0` for NUL-free ASCII strings. -/
def strNCaseEq (a b : List Char) (n : Nat) : Bool :=
  (a.take n).map asciiToLower == (b.take n).map asciiToLower

/-- `windows_to_container` from fakepath.c: `strncasecmp` the whole
configured host prefix (case-insensitive on *every* byte), require the
next byte to be `\0`, `/` or `\`, and build container prefix plus the
remainder with backslashes converted to forward slashes.  `none` means
no translation (caller passes the argument through). -/
def windows_to_container (st : FakepathState) (path : List Char) :
    Option (List Char) :=
  let wlen := st.g_windows_path.length
  if strNCaseEq path st.g_windows_path wlen then
    let next := (path.drop wlen).headD '\x00'
    if next == '\x00' || next == '/' || next == '\\' then
      some (st.g_container_path ++
        (path.drop wlen).map (fun c => if c == '\\' then '/' else c))
    else none
  else none

end Ccbox

namespace Ccbox

/-! ### Shared concrete fixtures used by witnesses and counterexamples -/

/-- A one-mapping configuration `C:/a ↔ /cc` with no dir mappings. -/
def cfgR : Config :=
  { mappings := [mk_mapping "C:/a".toList "/cc".toList], dirMappings := [] }

/-- An empty 64-slot negative cache. -/
def neg0 : NegState := ⟨List.replicate NEG_CACHE_SIZE ⟨"", 0⟩, 0⟩

/-- Empty read/skip caches (slot count irrelevant to the claims below). -/
def caches0 : Caches := ⟨neg0, ⟨[], 0⟩, ⟨[], 0⟩⟩

/-! ### C2 — interposition prefix matching -/

/-- C2 counterexample: with host prefix `D:/Git`, the path `D:/GIT/f`
differs from the prefix only in the case of the non-first characters
`i` and `t`, yet `windows_to_container` *does* translate it (the source
uses `strncasecmp` over the whole prefix), contradicting the claim that
such a path is left untranslated. -/
theorem c2_counterexample :
    windows_to_container ⟨"D:/Git".toList, "/c".toList⟩ "D:/GIT/f".toList
      = some "/c/f".toList := by decide

/-- C2 (amended): the interposition host-prefix match is ASCII
case-insensitive on *every* character of the prefix: any path whose
first `wlen` bytes equal the configured prefix up to ASCII case,
followed by `/`, `\` or end of string, is translated to the container
prefix plus the remainder with backslashes converted. -/
theorem c2_amended (st : FakepathState) (w rest : List Char)
    (hw : w.map asciiToLower = st.g_windows_path.map asciiToLower)
    (hb : rest = [] ∨ rest.headD '\x00' = '/' ∨ rest.headD '\x00' = '\\') :
    windows_to_container st (w ++ rest) =
      some (st.g_container_path ++
        rest.map (fun c => if c == '\\' then '/' else c)) := by
  have hlen : w.length = st.g_windows_path.length := by
    have h := congrArg List.length hw
    simpa using h
  have htake : (w ++ rest).take st.g_windows_path.length = w := by
    rw [← hlen, List.take_left]
  have hdrop : (w ++ rest).drop st.g_windows_path.length = rest := by
    rw [← hlen, List.drop_left]
  simp only [windows_to_container, strNCaseEq]
  rw [htake, hdrop, List.take_length, hw]
  rcases hb with h | h | h
  · simp [h]
  · simp [h]
    rcases rest with _ | ⟨c, t⟩
    · simp at h
    · simp [List.headD] at h
      simp [h]
  · simp [h]
    rcases rest with _ | ⟨c, t⟩
    · simp at h
    · simp [List.headD] at h
      simp [h]

/-- Witness for `c2_amended` at a concrete input: `d:/gIT` matches the
configured prefix `D:/Git` case-insensitively everywhere. -/
theorem c2_amended_witness :
    windows_to_container ⟨"D:/Git".toList, "/c".toList⟩
        ("d:/gIT".toList ++ "/f".toList) =
      some ("/c".toList ++
        "/f".toList.map (fun c => if c == '\\' then '/' else c)) :=
  c2_amended ⟨"D:/Git".toList, "/c".toList⟩ "d:/gIT".toList "/f".toList
    (by decide) (by decide)

end Ccbox

namespace Ccbox

/-! ### C10 — write returns the caller-supplied size -/

/-- C10: whenever the write-direction transform changes the buffer
(`transform_to_host_alloc` returns a new buffer) and the backing
`pwrite` succeeds, `ccbox_write` returns the caller-supplied `size`
(the length of the caller's buffer), not the number of transformed
bytes written to the backing file. -/
theorem c10_write_returns_size (cfg : Config) (old : List Char) (junk : Nat → Char)
    (ca : Caches) (fpath : String) (buf : List Char) (offset : Nat)
    (errnoV : Nat) (t : List Char)
    (ht : transform_to_host_alloc cfg buf = some t) :
    (ccbox_write cfg true old junk ca fpath buf offset true errnoV).ret =
      Int.ofNat buf.length := by
  simp only [ccbox_write, ht, if_true]
  split <;> rfl

/-- Witness for `c10_write_returns_size`: a concrete write whose
transformed length (10) differs from the caller-supplied size (7); the
returned value is the caller's 7. -/
theorem c10_write_returns_size_witness :
    transform_to_host_alloc cfgR "\"/cc/x\"".toList = some "\"C:\\\\a\\\\x\"".toList ∧
    (ccbox_write cfgR true "AB".toList (fun _ => 'J') caches0 "p"
        "\"/cc/x\"".toList 5 true 0).ret = Int.ofNat "\"/cc/x\"".toList.length ∧
    "\"C:\\\\a\\\\x\"".toList.length ≠ "\"/cc/x\"".toList.length :=
  ⟨by decide,
   c10_write_returns_size cfgR "AB".toList (fun _ => 'J') caches0 "p"
     "\"/cc/x\"".toList 5 0 "\"C:\\\\a\\\\x\"".toList (by decide),
   by decide⟩

/-! ### C5 — non-zero-offset transformed write merge -/

/-- C5 (code bug): at the failing input — backing file `AB` (2 bytes),
transformed write at offset 5 — the merged buffer's bytes between the
old file size and the write offset are the uninitialized heap bytes of
`malloc` (here the junk value `J`), not zeros: the source's `memset`
only covers a short `pread`, never the gap below the offset.  The rest
of the claim's layout (old prefix, transformed bytes at the offset)
does hold, as the first conjunct shows. -/
theorem c5_uninitialized_gap :
    (ccbox_write cfgR true "AB".toList (fun _ => 'J') caches0 "p"
        "\"/cc/x\"".toList 5 true 0).content =
      "AB".toList ++ "JJJ".toList ++ "\"C:\\\\a\\\\x\"".toList ∧
    (ccbox_write cfgR true "AB".toList (fun _ => 'J') caches0 "p"
        "\"/cc/x\"".toList 5 true 0).content ≠
      "AB".toList ++ List.replicate 3 '\x00' ++ "\"C:\\\\a\\\\x\"".toList := by
  constructor
  · decide
  · decide

end Ccbox

namespace Ccbox

/-! ### C3 — cache invalidation on mutating operations -/

/-- After `rcache_invalidate rc p`, no live ReadCache entry for `p` remains. -/
theorem rcacheHolds_invalidate_self (rc : RCacheState) (p : String) :
    rcacheHolds (rcache_invalidate rc p) p = false := by
  simp only [rcacheHolds, rcache_invalidate, List.any_map, List.any_eq_false,
    Function.comp]
  intro e _
  by_cases h1 : (e.data.isSome && e.path == p) = true
  · simp [h1]
  · simp only [h1, if_false, Bool.if_false_right]
    simpa using h1

/-- `rcache_invalidate` never revives an entry: liveness for `p` stays
false across an invalidation for any path. -/
theorem rcacheHolds_invalidate_mono (rc : RCacheState) (p q : String)
    (h : rcacheHolds rc p = false) :
    rcacheHolds (rcache_invalidate rc q) p = false := by
  simp only [rcacheHolds, rcache_invalidate, List.any_map, List.any_eq_false,
    Function.comp]
  simp only [rcacheHolds, List.any_eq_false] at h
  intro e he
  by_cases h1 : (e.data.isSome && e.path == q) = true
  · simp [h1]
  · simp only [h1, if_false]
    exact h e he

/-- After `scache_invalidate sc p`, no live SkipCache entry for `p` remains. -/
theorem scacheHolds_invalidate_self (sc : SCacheState) (p : String) :
    scacheHolds (scache_invalidate sc p) p = false := by
  simp only [scacheHolds, scache_invalidate, List.any_map, List.any_eq_false,
    Function.comp]
  intro e _
  by_cases h1 : (e.active && e.path == p) = true
  · simp [h1]
  · simp only [h1, if_false]
    simpa using h1

/-- `scache_invalidate` never revives an entry. -/
theorem scacheHolds_invalidate_mono (sc : SCacheState) (p q : String)
    (h : scacheHolds sc p = false) :
    scacheHolds (scache_invalidate sc q) p = false := by
  simp only [scacheHolds, scache_invalidate, List.any_map, List.any_eq_false,
    Function.comp]
  simp only [scacheHolds, List.any_eq_false] at h
  intro e he
  by_cases h1 : (e.active && e.path == q) = true
  · simp [h1]
  · simp only [h1, if_false]
    exact h e he

/-- After `neg_cache_invalidate st p`, no lookup for `p` hits at any
(non-negative) monotonic time: zeroed expiries never satisfy
`expires > now`. -/
theorem negLookup_invalidate_self (st : NegState) (p : String) (now : Nat) :
    neg_cache_lookup (neg_cache_invalidate st p) now p = false := by
  simp only [neg_cache_lookup, neg_cache_invalidate, List.any_map,
    List.any_eq_false, Function.comp]
  intro e _
  by_cases h1 : (e.path == p) = true
  · simp [h1]
  · simp [h1]

/-- The ReadCache state after `ccbox_write`, in every branch. -/
theorem ccbox_write_rc (cfg : Config) (needsT : Bool) (old : List Char)
    (junk : Nat → Char) (ca : Caches) (fpath : String) (buf : List Char)
    (offset : Nat) (ok : Bool) (e : Nat) :
    (ccbox_write cfg needsT old junk ca fpath buf offset ok e).rc =
      rcache_invalidate ca.rc fpath := by
  unfold ccbox_write
  split
  · split
    · split
      · split <;> rfl
      · split <;> rfl
    · split <;> rfl
  · split <;> rfl

/-- The SkipCache state after `ccbox_write`, in every branch. -/
theorem ccbox_write_sc (cfg : Config) (needsT : Bool) (old : List Char)
    (junk : Nat → Char) (ca : Caches) (fpath : String) (buf : List Char)
    (offset : Nat) (ok : Bool) (e : Nat) :
    (ccbox_write cfg needsT old junk ca fpath buf offset ok e).sc =
      scache_invalidate ca.sc fpath := by
  unfold ccbox_write
  split
  · split
    · split
      · split <;> rfl
      · split <;> rfl
    · split <;> rfl
  · split <;> rfl

/-- The caches after `ccbox_rename`, in every branch. -/
theorem ccbox_rename_caches (cfg : Config) (exts : List (List Char))
    (files : String → Option (List Char)) (ca : Caches)
    (from_ to_ : List Char) (ff ft : String) :
    (ccbox_rename cfg exts files ca from_ to_ ff ft).caches =
      { neg := neg_cache_invalidate ca.neg ft,
        rc := rcache_invalidate (rcache_invalidate ca.rc ff) ft,
        sc := scache_invalidate (scache_invalidate ca.sc ff) ft } := by
  unfold ccbox_rename
  split <;> rfl

/-- Fixture for the C3 counterexample: a live SkipCache entry for `p`. -/
def cachesC3 : Caches := ⟨neg0, ⟨[], 0⟩, ⟨[⟨"p", 1, 2, true⟩], 0⟩⟩

/-- C3 counterexample: `ccbox_truncate` calls only `rcache_invalidate`;
a live SkipCache entry for the truncated path survives the operation,
so it is false that every one of the three caches is purged of `p` by
each of write/truncate/unlink/rename. -/
theorem c3_counterexample :
    scacheHolds (ccbox_truncate cachesC3 "p" ['y'] 0).1.sc "p" = true := by
  decide

/-- C3 (amended): the invalidations the source actually performs —
`write` purges ReadCache and SkipCache entries for its backing path;
`truncate` and `unlink` purge ReadCache entries only; `rename` purges
ReadCache and SkipCache entries for both backing paths and NegCache
entries for the destination.  (NegCache entries survive write, truncate
and unlink; SkipCache entries survive truncate and unlink.) -/
theorem c3_amended (cfg : Config) (exts : List (List Char)) (needsT : Bool)
    (old content : List Char) (junk : Nat → Char) (ca : Caches)
    (files : String → Option (List Char)) (fpath ff ft : String)
    (buf : List Char) (offset size : Nat) (ok : Bool) (e : Nat)
    (from_ to_ : List Char) :
    (rcacheHolds (ccbox_write cfg needsT old junk ca fpath buf offset ok e).rc
        fpath = false ∧
     scacheHolds (ccbox_write cfg needsT old junk ca fpath buf offset ok e).sc
        fpath = false) ∧
    rcacheHolds (ccbox_truncate ca fpath content size).1.rc fpath = false ∧
    rcacheHolds (ccbox_unlink ca fpath).rc fpath = false ∧
    (rcacheHolds (ccbox_rename cfg exts files ca from_ to_ ff ft).caches.rc
        ff = false ∧
     rcacheHolds (ccbox_rename cfg exts files ca from_ to_ ff ft).caches.rc
        ft = false ∧
     scacheHolds (ccbox_rename cfg exts files ca from_ to_ ff ft).caches.sc
        ff = false ∧
     scacheHolds (ccbox_rename cfg exts files ca from_ to_ ff ft).caches.sc
        ft = false ∧
     ∀ now, neg_cache_lookup (ccbox_rename cfg exts files ca from_ to_ ff ft).caches.neg
        now ft = false) := by
  refine ⟨⟨?_, ?_⟩, ?_, ?_, ?_, ?_, ?_, ?_, ?_⟩
  · rw [ccbox_write_rc]; exact rcacheHolds_invalidate_self _ _
  · rw [ccbox_write_sc]; exact scacheHolds_invalidate_self _ _
  · exact rcacheHolds_invalidate_self _ _
  · exact rcacheHolds_invalidate_self _ _
  · rw [ccbox_rename_caches]
    exact rcacheHolds_invalidate_mono _ _ _ (rcacheHolds_invalidate_self _ _)
  · rw [ccbox_rename_caches]
    exact rcacheHolds_invalidate_self _ _
  · rw [ccbox_rename_caches]
    exact scacheHolds_invalidate_mono _ _ _ (scacheHolds_invalidate_self _ _)
  · rw [ccbox_rename_caches]
    exact scacheHolds_invalidate_self _ _
  · intro now
    rw [ccbox_rename_caches]
    exact negLookup_invalidate_self _ _ _

end Ccbox

namespace Ccbox

/-! ### C4 — negative-cache TTL behaviour of getattr -/

/-- Setting a slot inside the list puts the new element in the list. -/
theorem mem_set_self {α : Type} : ∀ (l : List α) (i : Nat) (a : α),
    i < l.length → a ∈ l.set i a
  | [], i, a, h => by simp at h
  | x :: t, 0, a, _ => by simp
  | x :: t, i + 1, a, h => by
    simp only [List.set]
    exact List.mem_cons_of_mem x (mem_set_self t i a (by simpa using h))

/-- An element of the list after setting a slot is an old element or the
new one. -/
theorem mem_of_mem_set {α : Type} : ∀ (l : List α) (i : Nat) (a b : α),
    b ∈ l.set i a → b ∈ l ∨ b = a
  | [], i, a, b, h => by simp at h
  | x :: t, 0, a, b, h => by
    rcases List.mem_cons.mp h with h | h
    · exact Or.inr h
    · exact Or.inl (List.mem_cons_of_mem x h)
  | x :: t, i + 1, a, b, h => by
    rcases List.mem_cons.mp h with h | h
    · exact Or.inl (h ▸ List.mem_cons_self x t)
    · rcases mem_of_mem_set t i a b h with h | h
      · exact Or.inl (List.mem_cons_of_mem x h)
      · exact Or.inr h

/-- C4: after a `get-attributes` that misses the negative cache and
hits backing ENOENT at monotonic time `t0` (which stats and inserts),
every later `get-attributes` on the same backing path against the
resulting cache state returns ENOENT without a backing stat while
`t < t0 + 2`, and performs a fresh backing stat once `t0 + 2 ≤ t`. -/
theorem c4_negcache (cfg : Config) (exts : List (List Char)) (neg : NegState)
    (rc rc2 : RCacheState) (t0 t : Nat) (lstatB lstatB2 : String → Option StatInfo)
    (path path2 : List Char) (fpath : String)
    (hlen : neg.entries.length = NEG_CACHE_SIZE)
    (hmiss : neg_cache_lookup neg t0 fpath = false)
    (henoent : lstatB fpath = none)
    (hmono : t0 ≤ t) :
    ((ccbox_getattr cfg exts neg rc t0 lstatB path fpath).res = -2 ∧
     (ccbox_getattr cfg exts neg rc t0 lstatB path fpath).didStat = true) ∧
    (t < t0 + NEG_CACHE_TTL →
      (ccbox_getattr cfg exts (ccbox_getattr cfg exts neg rc t0 lstatB path fpath).neg
          rc2 t lstatB2 path2 fpath).res = -2 ∧
      (ccbox_getattr cfg exts (ccbox_getattr cfg exts neg rc t0 lstatB path fpath).neg
          rc2 t lstatB2 path2 fpath).didStat = false) ∧
    (t0 + NEG_CACHE_TTL ≤ t →
      (ccbox_getattr cfg exts (ccbox_getattr cfg exts neg rc t0 lstatB path fpath).neg
          rc2 t lstatB2 path2 fpath).didStat = true) := by
  have hout : ccbox_getattr cfg exts neg rc t0 lstatB path fpath =
      ⟨-2, 0, true, neg_cache_insert neg t0 fpath, rc⟩ := by
    simp [ccbox_getattr, hmiss, henoent]
  have hm := List.any_eq_false.mp hmiss
  refine ⟨by rw [hout]; exact ⟨rfl, rfl⟩, ?_, ?_⟩
  · intro hlt
    have hhit : neg_cache_lookup (neg_cache_insert neg t0 fpath) t fpath = true := by
      apply List.any_eq_true.mpr
      refine ⟨⟨fpath, t0 + NEG_CACHE_TTL⟩, ?_, ?_⟩
      · exact mem_set_self _ _ _
          (by rw [hlen]; exact Nat.mod_lt _ (by decide))
      · simp [hlt]
    rw [hout]
    constructor <;> simp [ccbox_getattr, hhit]
  · intro hge
    have hmiss2 : neg_cache_lookup (neg_cache_insert neg t0 fpath) t fpath = false := by
      apply List.any_eq_false.mpr
      intro e he
      rcases mem_of_mem_set _ _ _ _ he with hmem | hnew
      · intro hp
        have hp' : t < e.expires ∧ (e.path == fpath) = true := by simpa using hp
        apply hm e hmem
        have : t0 < e.expires := lt_of_le_of_lt hmono hp'.1
        simp [this, hp'.2]
      · subst hnew
        simp only [Bool.and_eq_true, decide_eq_true_eq]
        rintro ⟨h1, -⟩
        omega
    rw [hout]
    simp only [ccbox_getattr, hmiss2, Bool.false_eq_true, if_false]
    rcases lstatB2 fpath with _ | st
    · rfl
    · simp only
      split
      · rcases h : (rcache_lookup rc2 fpath st.mtime_sec st.mtime_nsec).1 with _ | d <;>
          simp [h]
      · rfl

/-- Witness for `c4_negcache` at a concrete input: insertion at time
100, a hit (no stat) at time 101, and the expiry condition at 102
covered vacuously by the implication. -/
theorem c4_negcache_witness :
    ((ccbox_getattr cfgR defaultExtensions neg0 ⟨[], 0⟩ 100 (fun _ => none)
        "/x.json".toList "S/x.json").res = -2 ∧
     (ccbox_getattr cfgR defaultExtensions neg0 ⟨[], 0⟩ 100 (fun _ => none)
        "/x.json".toList "S/x.json").didStat = true) ∧
    (101 < 100 + NEG_CACHE_TTL →
      (ccbox_getattr cfgR defaultExtensions
          (ccbox_getattr cfgR defaultExtensions neg0 ⟨[], 0⟩ 100 (fun _ => none)
            "/x.json".toList "S/x.json").neg
          ⟨[], 0⟩ 101 (fun _ => none) "/x.json".toList "S/x.json").res = -2 ∧
      (ccbox_getattr cfgR defaultExtensions
          (ccbox_getattr cfgR defaultExtensions neg0 ⟨[], 0⟩ 100 (fun _ => none)
            "/x.json".toList "S/x.json").neg
          ⟨[], 0⟩ 101 (fun _ => none) "/x.json".toList "S/x.json").didStat = false) ∧
    (100 + NEG_CACHE_TTL ≤ 101 →
      (ccbox_getattr cfgR defaultExtensions
          (ccbox_getattr cfgR defaultExtensions neg0 ⟨[], 0⟩ 100 (fun _ => none)
            "/x.json".toList "S/x.json").neg
          ⟨[], 0⟩ 101 (fun _ => none) "/x.json".toList "S/x.json").didStat = true) :=
  c4_negcache cfgR defaultExtensions neg0 ⟨[], 0⟩ ⟨[], 0⟩ 100 101
    (fun _ => none) (fun _ => none) "/x.json".toList "/x.json".toList "S/x.json"
    (by decide) (by decide) rfl (by decide)

end Ccbox

namespace Ccbox

/-! ### C8 — readdir deduplication -/

/-- With distinct entry names, membership plus equal names forces equal
entries. -/
theorem dirent_name_inj : ∀ (l : List DirEnt),
    (l.map DirEnt.name).Nodup →
    ∀ e1 ∈ l, ∀ e2 ∈ l, e1.name = e2.name → e1 = e2 := by
  intro l
  induction l with
  | nil => intro _ e1 h1; cases h1
  | cons x t ih =>
    intro hl e1 h1 e2 h2 hname
    have hx : x.name ∉ t.map DirEnt.name := (List.nodup_cons.mp (by simpa using hl)).1
    have ht : (t.map DirEnt.name).Nodup := (List.nodup_cons.mp (by simpa using hl)).2
    rcases List.mem_cons.mp h1 with h1 | h1 <;> rcases List.mem_cons.mp h2 with h2 | h2
    · rw [h1, h2]
    · exfalso; apply hx
      have hmem : e2.name ∈ t.map DirEnt.name := List.mem_map_of_mem DirEnt.name h2
      rw [← hname, h1] at hmem
      exact hmem
    · exfalso; apply hx
      have hmem : e1.name ∈ t.map DirEnt.name := List.mem_map_of_mem DirEnt.name h1
      rw [hname, h2] at hmem
      exact hmem
    · exact ih ht e1 h1 e2 h2 hname

/-- If the listing (with distinct names) contains a directory entry of
name `n`, the sibling `lstat` check reports a directory. -/
theorem lstatIsDirIn_eq_true (listing : List DirEnt) (n : List Char)
    (hN : (⟨n, true⟩ : DirEnt) ∈ listing)
    (hnodup : (listing.map DirEnt.name).Nodup) :
    lstatIsDirIn listing n = true := by
  unfold lstatIsDirIn
  rcases hfind : listing.find? (fun e => e.name == n) with _ | e'
  · exfalso
    have := List.find?_eq_none.mp hfind ⟨n, true⟩ hN
    simp at this
  · have hpred := List.find?_some hfind
    have hmem : e' ∈ listing := List.mem_of_find?_eq_some hfind
    have he : e' = ⟨n, true⟩ :=
      dirent_name_inj listing hnodup e' hmem ⟨n, true⟩ hN (by simpa using hpred)
    rw [hfind, he]

/-- The mapping loop renames a native name to its container name when
the deciding mapping is reachable (no earlier mapping's names collide). -/
theorem visibleName_native (dms : List DirMapping) (lst : List Char → Bool)
    (dm : DirMapping) (hdm : dm ∈ dms)
    (hother : ∀ dm' ∈ dms, dm' ≠ dm →
      dm.native_name ≠ dm'.native_name ∧ dm.native_name ≠ dm'.container_name) :
    visibleName dms lst dm.native_name = some dm.container_name := by
  induction dms with
  | nil => cases hdm
  | cons d rest ih =>
    by_cases hd : d = dm
    · subst hd; simp [visibleName]
    · have h := hother d (List.mem_cons_self d rest) hd
      have h1 : (dm.native_name == d.native_name) = false :=
        beq_eq_false_iff_ne.mpr h.1
      have h2 : (dm.native_name == d.container_name) = false :=
        beq_eq_false_iff_ne.mpr h.2
      simp only [visibleName, h1, h2, Bool.false_eq_true, if_false]
      have hdm' : dm ∈ rest := by
        rcases List.mem_cons.mp hdm with h' | h'
        · exact absurd h'.symm hd
        · exact h'
      exact ih hdm' (fun dm' hm hne => hother dm' (List.mem_cons_of_mem d hm) hne)

/-- The mapping loop suppresses a literal container-name entry when the
native sibling is a directory. -/
theorem visibleName_container (dms : List DirMapping) (lst : List Char → Bool)
    (dm : DirMapping) (hdm : dm ∈ dms)
    (hNC : dm.container_name ≠ dm.native_name)
    (hother : ∀ dm' ∈ dms, dm' ≠ dm →
      dm.container_name ≠ dm'.native_name ∧ dm.container_name ≠ dm'.container_name)
    (hdir : lst dm.native_name = true) :
    visibleName dms lst dm.container_name = none := by
  induction dms with
  | nil => cases hdm
  | cons d rest ih =>
    by_cases hd : d = dm
    · have h1 : (dm.container_name == dm.native_name) = false :=
        beq_eq_false_iff_ne.mpr hNC
      rw [hd]
      simp [visibleName, h1, hdir]
    · have h := hother d (List.mem_cons_self d rest) hd
      have h1 : (dm.container_name == d.native_name) = false :=
        beq_eq_false_iff_ne.mpr h.1
      have h2 : (dm.container_name == d.container_name) = false :=
        beq_eq_false_iff_ne.mpr h.2
      simp only [visibleName, h1, h2, Bool.false_eq_true, if_false]
      have hdm' : dm ∈ rest := by
        rcases List.mem_cons.mp hdm with h' | h'
        · exact absurd h'.symm hd
        · exact h'
      exact ih hdm' (fun dm' hm hne => hother dm' (List.mem_cons_of_mem d hm) hne)

/-- Entries whose visible name is not `C` contribute nothing to the
`C`-filtered enumeration. -/
theorem filter_visible_nil (dms : List DirMapping) (lst : List Char → Bool)
    (C : List Char) :
    ∀ (l : List DirEnt),
      (∀ e ∈ l, visibleName dms lst e.name ≠ some C) →
      ((l.filterMap (fun e =>
          (visibleName dms lst e.name).map (fun n => (n, e.isDir)))).filter
        (fun p => p.1 == C)) = [] := by
  intro l
  induction l with
  | nil => intro _; simp
  | cons e t ih =>
    intro h
    have he := h e (List.mem_cons_self e t)
    rcases hv : visibleName dms lst e.name with _ | v
    · simp only [List.filterMap_cons, hv, Option.map_none']
      exact ih (fun e' h' => h e' (List.mem_cons_of_mem e h'))
    · have hvC : (v == C) = false := by
        apply beq_eq_false_iff_ne.mpr
        intro hEq
        exact he (hv.trans (by rw [hEq]))
      simp only [List.filterMap_cons, hv, Option.map_some', List.filter_cons, hvC,
        Bool.false_eq_true, if_false]
      exact ih (fun e' h' => h e' (List.mem_cons_of_mem e h'))

/-- C8: when the backing directory contains both a directory entry
named `native_name` and a sibling literal entry named `container_name`
of a dir mapping (entry names distinct, the deciding mapping reachable
in the table, and no other entry enumerating to `container_name`), the
enumeration emits exactly one entry named `container_name`, and it is
derived from the native entry (it carries the native entry's directory
type). -/
theorem c8_dedup (dms : List DirMapping) (listing : List DirEnt)
    (dm : DirMapping) (bC : Bool)
    (hdm : dm ∈ dms)
    (hNC : dm.native_name ≠ dm.container_name)
    (hother : ∀ dm' ∈ dms, dm' ≠ dm →
      (dm.native_name ≠ dm'.native_name ∧ dm.native_name ≠ dm'.container_name) ∧
      (dm.container_name ≠ dm'.native_name ∧ dm.container_name ≠ dm'.container_name))
    (hN : (⟨dm.native_name, true⟩ : DirEnt) ∈ listing)
    (hC : (⟨dm.container_name, bC⟩ : DirEnt) ∈ listing)
    (hnodup : (listing.map DirEnt.name).Nodup)
    (hoth : ∀ e ∈ listing, e.name ≠ dm.native_name → e.name ≠ dm.container_name →
      visibleName dms (lstatIsDirIn listing) e.name ≠ some dm.container_name) :
    (ccbox_readdir dms listing).filter (fun p => p.1 == dm.container_name) =
      [(dm.container_name, true)] := by
  have hdir : lstatIsDirIn listing dm.native_name = true :=
    lstatIsDirIn_eq_true listing dm.native_name hN hnodup
  have hsupp : visibleName dms (lstatIsDirIn listing) dm.container_name = none :=
    visibleName_container dms (lstatIsDirIn listing) dm hdm (fun h => hNC h.symm)
      (fun dm' hm hne => (hother dm' hm hne).2) hdir
  obtain ⟨l1, l2, hsplit⟩ := List.append_of_mem hN
  have hvisN : visibleName dms (lstatIsDirIn listing) dm.native_name =
      some dm.container_name :=
    visibleName_native dms _ dm hdm (fun dm' hm hne => (hother dm' hm hne).1)
  have hmapn : ((l1.map DirEnt.name) ++
      dm.native_name :: (l2.map DirEnt.name)).Nodup := by
    rw [hsplit, List.map_append, List.map_cons] at hnodup
    exact hnodup
  have hparts := List.nodup_append.mp hmapn
  have hNnotl1 : ∀ e ∈ l1, e.name ≠ dm.native_name := by
    intro e he hEq
    exact hparts.2.2 (hEq ▸ List.mem_map_of_mem DirEnt.name he)
      (List.mem_cons_self _ _)
  have hNnotl2 : ∀ e ∈ l2, e.name ≠ dm.native_name := by
    intro e he hEq
    exact (List.nodup_cons.mp hparts.2.1).1
      (hEq ▸ List.mem_map_of_mem DirEnt.name he)
  have hside : ∀ e ∈ listing, e.name ≠ dm.native_name →
      visibleName dms (lstatIsDirIn listing) e.name ≠ some dm.container_name := by
    intro e he hne
    by_cases hc : e.name = dm.container_name
    · rw [hc, hsupp]; simp
    · exact hoth e he hne hc
  have h0 : ccbox_readdir dms listing =
      (l1 ++ (⟨dm.native_name, true⟩ : DirEnt) :: l2).filterMap
        (fun e => (visibleName dms (lstatIsDirIn listing) e.name).map
          (fun n => (n, e.isDir))) := by
    unfold ccbox_readdir
    rw [← hsplit]
  rw [h0, List.filterMap_append, List.filterMap_cons, List.filter_append]
  have hleft := filter_visible_nil dms (lstatIsDirIn listing) dm.container_name l1
    (fun e he => hside e (hsplit ▸ List.mem_append_left _ he) (hNnotl1 e he))
  have hright := filter_visible_nil dms (lstatIsDirIn listing) dm.container_name l2
    (fun e he => hside e
      (hsplit ▸ List.mem_append_right _ (List.mem_cons_of_mem _ he))
      (hNnotl2 e he))
  rw [hleft]
  simp only [hvisN, Option.map_some', List.filter_cons]
  simp only [beq_self_eq_true, if_true, hright, List.nil_append]

/-- Fixture: the spec's dir mapping `-d-GitHub-app ↔ D--GitHub-app`. -/
def dmEx : DirMapping := ⟨"-d-app".toList, "D--app".toList⟩

/-- Fixture: a backing listing with the native directory, the literal
container-name sibling, and an unrelated file. -/
def listing1 : List DirEnt :=
  [⟨"x.json".toList, false⟩, ⟨"D--app".toList, true⟩, ⟨"-d-app".toList, false⟩]

/-- Witness for `c8_dedup` at a concrete listing: exactly one `-d-app`
entry survives, marked as a directory (derived from `D--app`). -/
theorem c8_dedup_witness :
    (ccbox_readdir [dmEx] listing1).filter
        (fun p => p.1 == dmEx.container_name) =
      [(dmEx.container_name, true)] :=
  c8_dedup [dmEx] listing1 dmEx false (by decide) (by decide)
    (by decide) (by decide) (by decide) (by decide) (by decide)

end Ccbox

namespace Ccbox

/-! ### C6 — emission boundaries of the remainder copies -/

/-- Fixture: drive mapping `C:/u → /cc`. -/
def cfgC6 : Config :=
  { mappings := [mk_mapping "C:/u".toList "/cc".toList], dirMappings := [] }

/-- C6 counterexample: in the drive shape of the read direction the
remainder copy does *not* stop at whitespace.  On
`"C:\\u\\a b\\c"` the actual transform yields `"/cc/a b/c"`: the
JSON-escaped `\\` *after the space* was still consumed and normalized
to `/`.  Had the copy stopped at the first whitespace byte as the claim
states, the bytes after the space would have passed through the scanner
untouched, giving `"/cc/a b\\c"` — a different buffer. -/
theorem c6_counterexample :
    toContainerEff cfgC6 "\"C:\\\\u\\\\a b\\\\c\"".toList =
      "\"/cc/a b/c\"".toList ∧
    "\"/cc/a b/c\"".toList ≠ "\"/cc/a b\\\\c\"".toList := by
  constructor
  · decide
  · decide

/-- C6 (amended): the boundaries actually implemented.  For the drive
and UNC shapes of the read direction the remainder (extracted by
`extract_json_path`) stops exactly at the first `"`, `,`, `}` or `]` —
whitespace does not terminate it; the mount-prefix read remainder and
every write-direction remainder stop at the first `"`, `,`, `}`, `]`
*or* whitespace byte. -/
theorem c6_amended :
    (∀ (b : Nat) (l : List Char), l.length ≤ b →
      (extract_json_path b l).2 = l.dropWhile (fun c => !isJsonDelim c)) ∧
    (∀ l : List Char,
      (copyRemC l).2 = l.dropWhile (fun c => !(isJsonDelim c || asciiIsSpace c))) ∧
    (∀ (esc : Bool) (l : List Char),
      (copyRemH esc l).2 =
        l.dropWhile (fun c => !(isJsonDelim c || asciiIsSpace c))) := by
  refine ⟨?_, ?_, ?_⟩
  · intro b
    induction b with
    | zero =>
      intro l h
      cases l with
      | nil => rfl
      | cons c t => simp at h
    | succ b ih =>
      intro l h
      cases l with
      | nil => rfl
      | cons c t =>
        by_cases hd : isJsonDelim c = true
        · simp [extract_json_path, hd, List.dropWhile]
        · rw [List.dropWhile]
          simp only [hd, Bool.not_false]
          by_cases hb : (c == '\\') = true
          · cases t with
            | nil =>
              simp only [extract_json_path, hd, Bool.false_eq_true, if_false, hb,
                if_true]
              rfl
            | cons c2 t2 =>
              by_cases hb2 : (c2 == '\\') = true
              · have hc2 : c2 = '\\' := by simpa using hb2
                subst hc2
                simp only [extract_json_path, hd, Bool.false_eq_true, if_false, hb,
                  if_true, List.headD, List.tail]
                rw [ih t2 (by simp at h; omega)]
                have hnd : isJsonDelim '\\' = false := by decide
                rw [List.dropWhile]
                simp [hnd]
              · simp only [extract_json_path, hd, Bool.false_eq_true, if_false, hb,
                  if_true, List.headD, hb2]
                rw [ih (c2 :: t2) (by simp at h ⊢; omega)]
          · simp only [extract_json_path, hd, Bool.false_eq_true, if_false, hb]
            exact ih t (by simp at h; omega)
  · intro l
    induction l with
    | nil => rfl
    | cons c t ih =>
      by_cases hs : (isJsonDelim c || asciiIsSpace c) = true
      · simp [copyRemC, hs, List.dropWhile]
      · rw [List.dropWhile]
        simp only [copyRemC, hs, Bool.false_eq_true, if_false, Bool.not_false]
        exact ih
  · intro esc l
    induction l with
    | nil => rfl
    | cons c t ih =>
      by_cases hs : (isJsonDelim c || asciiIsSpace c) = true
      · simp [copyRemH, hs, List.dropWhile]
      · rw [List.dropWhile]
        simp only [copyRemH, hs, Bool.false_eq_true, if_false, Bool.not_false]
        exact ih

/-- Witness for `c6_amended` at concrete inputs (`4095` is the call-site
pathbuf capacity; the input is shorter, discharging the bound). -/
theorem c6_amended_witness :
    (extract_json_path 4095 "a b\\\\c\"e".toList).2 =
      "a b\\\\c\"e".toList.dropWhile (fun c => !isJsonDelim c) ∧
    (copyRemC "a b\"e".toList).2 =
      "a b\"e".toList.dropWhile (fun c => !(isJsonDelim c || asciiIsSpace c)) ∧
    (copyRemH true "x/y,z".toList).2 =
      "x/y,z".toList.dropWhile (fun c => !(isJsonDelim c || asciiIsSpace c)) :=
  ⟨c6_amended.1 4095 "a b\\\\c\"e".toList (by decide),
   c6_amended.2.1 "a b\"e".toList,
   c6_amended.2.2 true "x/y,z".toList⟩

end Ccbox

namespace Ccbox

/-! ### C7 — idempotence of the read-direction transform -/

/-- Whether any of the three Pass-A cases fires at the head of `l`. -/
def tcMatchAt (cfg : Config) (l : List Char) : Bool :=
  (case1? cfg l).isSome || (case2? cfg l).isSome || (case3? cfg l).isSome

/-- Fixture: single mapping `c:/a → /t`. -/
def cfgC7 : Config :=
  { mappings := [mk_mapping "c:/a".toList "/t".toList], dirMappings := [] }

/-- C7 counterexample, with a single (hence trivially non-overlapping)
mapping `c:/a → /t`.  The first application rewrites the token
`C:\\a\\c:\\a\\z` to `/t/c:/a/z` — the copied remainder itself
contains the host pattern `c:/a` in normalized form — and a second
application rewrites that remainder again, so
`to-container (to-container b) ≠ to-container b`. -/
theorem c7_counterexample :
    toContainerEff cfgC7 "\"C:\\\\a\\\\c:\\\\a\\\\z\"".toList =
      "\"/t/c:/a/z\"".toList ∧
    toContainerEff cfgC7 "\"/t/c:/a/z\"".toList = "\"/t//t/z\"".toList ∧
    toContainerEff cfgC7
        (toContainerEff cfgC7 "\"C:\\\\a\\\\c:\\\\a\\\\z\"".toList) ≠
      toContainerEff cfgC7 "\"C:\\\\a\\\\c:\\\\a\\\\z\"".toList := by
  refine ⟨by decide, by decide, by decide⟩

/-- If no Pass-A case fires at any position of the buffer, the scan
reports no transform. -/
theorem tcScan_flag_false (cfg : Config) : ∀ (fuel : Nat) (l : List Char),
    (∀ i < l.length, tcMatchAt cfg (l.drop i) = false) →
    (tcScan cfg fuel l).2 = false := by
  intro fuel
  induction fuel with
  | zero => intro l _; rfl
  | succ f ih =>
    intro l h
    cases l with
    | nil => rfl
    | cons c t =>
      have h0 : tcMatchAt cfg (c :: t) = false := by
        have := h 0 (by simp)
        simpa using this
      have hdec := h0
      simp only [tcMatchAt, Bool.or_eq_false_iff] at hdec
      have h1 : case1? cfg (c :: t) = none :=
        Option.not_isSome_iff_eq_none.mp (by simp [hdec.1.1])
      have h2 : case2? cfg (c :: t) = none :=
        Option.not_isSome_iff_eq_none.mp (by simp [hdec.1.2])
      have h3 : case3? cfg (c :: t) = none :=
        Option.not_isSome_iff_eq_none.mp (by simp [hdec.2])
      rw [tcScan]
      by_cases hnul : (c == '\x00') = true
      · simp [hnul]
      · simp only [hnul, Bool.false_eq_true, if_false, h1, h2, h3]
        exact ih t (fun i hi => by
          have := h (i + 1) (by simpa using Nat.succ_lt_succ hi)
          simpa using this)

/-- If no Pass-A case fires anywhere in a buffer, the read-direction
transform leaves it unchanged (`any_transform` stays 0 and the
allocating transform returns NULL). -/
theorem toContainerEff_no_match (cfg : Config) (c : List Char)
    (h : ∀ i < c.length, tcMatchAt cfg (c.drop i) = false) :
    toContainerEff cfg c = c := by
  unfold toContainerEff transform_to_container_alloc
  by_cases he : (c.isEmpty || cfg.mappings.isEmpty) = true
  · simp [he]
  · have hflag : (tcScan cfg c.length c).2 = false := tcScan_flag_false cfg _ _ h
    simp [he, hflag]

/-- C7 (amended): the read-direction transform is idempotent on `b`
provided the first application's output contains no residual host-path
pattern of the configuration (no position where a drive, UNC or
mount-prefix case fires).  In general a rewritten token's copied
remainder may itself contain a host-path pattern — even under a single,
non-overlapping mapping — and a second application rewrites it again
(see the counterexample). -/
theorem c7_amended (cfg : Config) (b : List Char)
    (h : ∀ i < (toContainerEff cfg b).length,
      tcMatchAt cfg ((toContainerEff cfg b).drop i) = false) :
    toContainerEff cfg (toContainerEff cfg b) = toContainerEff cfg b :=
  toContainerEff_no_match cfg (toContainerEff cfg b) h

/-- Witness for `c7_amended`: with mapping `c:/a → /t` and input
`"C:\\a\\z"` the single application gives `"/t/z"`, which contains no
residual pattern, and the second application is the identity on it. -/
theorem c7_amended_witness :
    toContainerEff cfgC7
        (toContainerEff cfgC7 "\"C:\\\\a\\\\z\"".toList) =
      toContainerEff cfgC7 "\"C:\\\\a\\\\z\"".toList :=
  c7_amended cfgC7 "\"C:\\\\a\\\\z\"".toList (by decide)

end Ccbox

namespace Ccbox

/-! ### C9 — rename post-transform -/

/-- No container prefix of `cfgR` matches at a space byte. -/
theorem findToMatch_cfgR_space (l : List Char) :
    findToMatch cfgR.mappings (' ' :: l) = none := by
  have h : cfgR.mappings =
      [⟨"C:/a".toList, "/cc".toList, 'c', false, false⟩] := by decide
  rw [findToMatch, h]
  simp [List.find?, List.isPrefixOf]

/-- The write-direction scan copies a run of spaces verbatim (under
`cfgR`), consuming one fuel per byte. -/
theorem thScan_cfgR_spaces : ∀ (n fuel : Nat) (rest : List Char),
    thScan cfgR (n + fuel) (List.replicate n ' ' ++ rest) =
      (List.replicate n ' ' ++ (thScan cfgR fuel rest).1,
       (thScan cfgR fuel rest).2) := by
  intro n
  induction n with
  | zero => intro fuel rest; simp
  | succ n ih =>
    intro fuel rest
    have hrep : List.replicate (n + 1) ' ' ++ rest =
        ' ' :: (List.replicate n ' ' ++ rest) := by
      rw [List.replicate_succ, List.cons_append]
    have hfuel : n + 1 + fuel = (n + fuel) + 1 := by omega
    rw [hrep, hfuel, thScan, findToMatch_cfgR_space]
    rw [ih fuel rest]
    rw [List.replicate_succ, List.cons_append]

/-- A 4 MiB + 3 bytes file whose container-path token sits at the end. -/
def bigContent : List Char := List.replicate 4194300 ' ' ++ "\"/cc/x\"".toList

/-- What the write-direction transform makes of `bigContent`. -/
def bigOut : List Char := List.replicate 4194300 ' ' ++ "\"C:\\\\a\\\\x\"".toList

/-- The length of `bigContent` (above the 4 MiB cache cap). -/
theorem bigContent_length : bigContent.length = 4194307 := by
  rw [show bigContent = List.replicate 4194300 ' ' ++ "\"/cc/x\"".toList from rfl,
    List.length_append, List.length_replicate]
  decide

/-- The length of `bigOut`. -/
theorem bigOut_length : bigOut.length = 4194310 := by
  rw [show bigOut = List.replicate 4194300 ' ' ++ "\"C:\\\\a\\\\x\"".toList from rfl,
    List.length_append, List.length_replicate]
  decide

/-- The write-direction transform on `bigContent` succeeds and changes
the buffer. -/
theorem big_toHost : transform_to_host_alloc cfgR bigContent = some bigOut := by
  have hsmall : thScan cfgR 7 "\"/cc/x\"".toList =
      ("\"C:\\\\a\\\\x\"".toList, true) := by decide
  have hne : bigContent ≠ [] := by
    intro h0
    have := bigContent_length
    rw [h0] at this
    simp at this
  have hie : bigContent.isEmpty = false := by
    rcases hb : bigContent.isEmpty
    · rfl
    · exact absurd (List.isEmpty_iff.mp hb) hne
  have hlen7 : bigContent.length = 4194300 + 7 := by
    rw [bigContent_length]
  have hscan : thScan cfgR bigContent.length bigContent = (bigOut, true) := by
    rw [hlen7]
    rw [show bigContent = List.replicate 4194300 ' ' ++ "\"/cc/x\"".toList from rfl]
    rw [thScan_cfgR_spaces 4194300 7 "\"/cc/x\"".toList, hsmall]
    rfl
  have hdm : apply_dirmap cfgR false bigOut = none := by
    rw [apply_dirmap]
    simp [show cfgR.dirMappings.isEmpty = true from by decide]
  rw [transform_to_host_alloc]
  simp only [hie, (show cfgR.mappings.isEmpty = false by decide), Bool.or_self,
    Bool.false_eq_true, if_false, hscan, Bool.not_true]
  rw [if_neg ?hcap]
  case hcap =>
    rw [bigContent_length, bigOut_length]
    decide
  rw [hdm]

/-- The backing files for the C9 counterexample: only the temporary
source file exists, holding `bigContent`. -/
def filesC9 : String → Option (List Char) :=
  fun p => if p = "S/tmp-x" then some bigContent else none

/-- C9 counterexample: renaming `tmp-x` (not transformable) onto
`s.json` (transformable) with a regular 4 MiB + 3 byte file does *not*
rewrite the content — the source only applies the post-rename transform
to files of at most `RCACHE_MAX_SIZE` (4 MiB) bytes — although the
write-direction transform would change the buffer. -/
theorem c9_counterexample :
    (ccbox_rename cfgR defaultExtensions filesC9 caches0 "/tmp-x".toList
        "/s.json".toList "S/tmp-x" "S/s.json").files "S/s.json" =
      some bigContent ∧
    toHostEff cfgR bigContent ≠ bigContent := by
  constructor
  · have hff : filesC9 "S/tmp-x" = some bigContent := by
      rw [filesC9]
      simp
    simp only [ccbox_rename, hff]
    simp only [(show needs_transform cfgR defaultExtensions "/s.json".toList = true
        by decide),
      (show needs_transform cfgR defaultExtensions "/tmp-x".toList = false by decide),
      (show cfgR.mappings.isEmpty = false by decide)]
    simp only [Bool.not_false, Bool.not_true, Bool.and_true, Bool.and_self,
      Bool.true_and, if_true]
    rw [if_neg ?hsz]
    case hsz =>
      rw [bigContent_length]
      decide
    simp
  · intro h
    have hb := big_toHost
    rw [toHostEff, hb] at h
    have hlen := congrArg List.length h
    simp only [Option.getD_some] at hlen
    rw [bigOut_length, bigContent_length] at hlen
    simp at hlen

/-- C9 (amended): when additionally the renamed regular file is
non-empty and at most 4 MiB (`RCACHE_MAX_SIZE`), the destination's
content after `ccbox_rename` is the write-direction transform of the
renamed content (unchanged when the transform reports no change),
truncated to the transformed length, and the rename returns success.
Files above the cap are left untouched (see the counterexample). -/
theorem c9_amended (cfg : Config) (exts : List (List Char))
    (files : String → Option (List Char)) (ca : Caches)
    (from_ to_ : List Char) (ff ft : String) (content : List Char)
    (hff : files ff = some content)
    (hnt : needs_transform cfg exts to_ = true)
    (hns : needs_transform cfg exts from_ = false)
    (hsz : 0 < content.length)
    (hcap : content.length ≤ RCACHE_MAX_SIZE) :
    (ccbox_rename cfg exts files ca from_ to_ ff ft).files ft =
      some (toHostEff cfg content) ∧
    (ccbox_rename cfg exts files ca from_ to_ ff ft).res = 0 := by
  have hm : cfg.mappings.isEmpty = false := by
    rcases hb : cfg.mappings.isEmpty
    · rfl
    · exfalso
      rw [needs_transform, hb] at hnt
      simp at hnt
  constructor
  · simp only [ccbox_rename, hff]
    simp only [hm, hnt, hns, Bool.not_false, Bool.not_true, Bool.and_true,
      Bool.and_self, Bool.true_and, if_true]
    rw [if_pos (by simp [hsz, hcap])]
    rcases htr : transform_to_host_alloc cfg content with _ | t
    · simp [toHostEff, htr]
    · simp [toHostEff, htr]
  · simp only [ccbox_rename, hff]

/-- Witness for `c9_amended` at a concrete small file. -/
theorem c9_amended_witness :
    (ccbox_rename cfgR defaultExtensions
        (fun p => if p = "S/t" then some "\"/cc/x\"".toList else none) caches0
        "/t".toList "/s.json".toList "S/t" "S/s.json").files "S/s.json" =
      some (toHostEff cfgR "\"/cc/x\"".toList) ∧
    (ccbox_rename cfgR defaultExtensions
        (fun p => if p = "S/t" then some "\"/cc/x\"".toList else none) caches0
        "/t".toList "/s.json".toList "S/t" "S/s.json").res = 0 :=
  c9_amended cfgR defaultExtensions
    (fun p => if p = "S/t" then some "\"/cc/x\"".toList else none) caches0
    "/t".toList "/s.json".toList "S/t" "S/s.json" "\"/cc/x\"".toList
    (by simp) (by decide) (by decide) (by decide) (by decide)

end Ccbox

namespace Ccbox

/-! ### C1 — round trip: to-host ∘ to-container = id

The round-trip theorem is proved over *documents*: a buffer is the
rendering of a list of items, each either plain text (free of host and
container signatures) or a quoted host-path token of one of the three
shapes, with a clean remainder.  `renderHost` renders tokens in the
JSON-escaped host convention (`\\` pairs for drive and UNC paths);
`renderCont` renders them in container form. -/

/-- A byte allowed inside a path token: no JSON delimiter, no
whitespace, no backslash, no NUL. -/
def cleanChar (c : Char) : Bool :=
  !isJsonDelim c && !asciiIsSpace c && c != '\\' && c != '\x00'

/-- The separator convention of a token: JSON-escaped `\\` pairs for
drive and UNC host forms, plain bytes for WSL forms (this is exactly
what `transform_to_host_alloc` computes from the mapping). -/
def tokEsc (m : PathMapping) : Bool :=
  useBackslashOf m.from_ || isUncOrigOf m.from_

/-- One document item. -/
inductive Item where
  | plain (s : List Char)
  | tok (m : PathMapping) (rem : List Char)

/-- A token in host form: quoted, with the mapping's host prefix and the
remainder rendered in the token's separator convention. -/
def renderHostTok (m : PathMapping) (rem : List Char) : List Char :=
  '"' :: escList (tokEsc m) (m.from_ ++ rem) ++ ['"']

/-- A token in container form: quoted container prefix plus remainder. -/
def renderContTok (m : PathMapping) (rem : List Char) : List Char :=
  '"' :: (m.to_ ++ rem) ++ ['"']

/-- Host rendering of a document. -/
def renderHost : List Item → List Char
  | [] => []
  | .plain s :: d => s ++ renderHost d
  | .tok m rem :: d => renderHostTok m rem ++ renderHost d

/-- Container rendering of a document. -/
def renderCont : List Item → List Char
  | [] => []
  | .plain s :: d => s ++ renderCont d
  | .tok m rem :: d => renderContTok m rem ++ renderCont d

/-- Whether the document contains at least one token. -/
def hasTok : List Item → Bool
  | [] => false
  | .plain _ :: d => hasTok d
  | .tok _ _ :: d => true

/-- Whether the write-direction match fires at the head of `l`. -/
def thMatchAt (cfg : Config) (l : List Char) : Bool :=
  (findToMatch cfg.mappings l).isSome

/-- Plain text is safe on the read side: no NUL byte, and no Pass-A case
fires at any of its positions (in context: `rest` is the host rendering
of the remaining document). -/
def plainOkC (cfg : Config) : List Char → List Char → Bool
  | [], _ => true
  | c :: t, rest =>
    c != '\x00' && !tcMatchAt cfg (c :: (t ++ rest)) && plainOkC cfg t rest

/-- Plain text is safe on the write side: no container prefix matches at
any of its positions (in context: `rest` is the container rendering of
the remaining document). -/
def plainOkH (cfg : Config) : List Char → List Char → Bool
  | [], _ => true
  | c :: t, rest => !thMatchAt cfg (c :: (t ++ rest)) && plainOkH cfg t rest

/-- The kind tags of a mapping agree with its host form, and the host
form has the shape its kind requires. -/
def kindOk (m : PathMapping) : Bool :=
  if m.is_wsl then
    !m.is_unc &&
    nthChar m.from_ 0 == '/' && nthChar m.from_ 1 == 'm' &&
    nthChar m.from_ 2 == 'n' && nthChar m.from_ 3 == 't' &&
    nthChar m.from_ 4 == '/' && asciiIsAlpha (nthChar m.from_ 5) &&
    decide (6 ≤ m.from_.length) &&
    m.drive == asciiToLower (nthChar m.from_ 5)
  else if m.is_unc then
    nthChar m.from_ 0 == '/' && nthChar m.from_ 1 == '/' &&
    decide (2 ≤ m.from_.length)
  else
    asciiIsAlpha (nthChar m.from_ 0) && nthChar m.from_ 1 == ':' &&
    decide (2 ≤ m.from_.length) &&
    m.drive == asciiToLower (nthChar m.from_ 0)

/-- A well-formed mapping: clean non-empty absolute container form,
clean host form, consistent kind tags. -/
def validMapping (m : PathMapping) : Bool :=
  !m.to_.isEmpty && m.to_.headD ' ' == '/' && m.to_.all cleanChar &&
  !m.from_.isEmpty && m.from_.all cleanChar && kindOk m

/-- A well-formed configuration for the round trip: every mapping valid
and no directory mappings (the round-trip property is about the path
mappings; Pass B is the directory-name pass). -/
def validCfg (cfg : Config) : Bool :=
  cfg.mappings.all validMapping && cfg.dirMappings.isEmpty

/-- A clean token remainder: clean bytes, starting with `/` if
non-empty. -/
def remOk (rem : List Char) : Bool :=
  rem.all cleanChar && (rem.isEmpty || rem.headD ' ' == '/')

/-- `m` is the unique deciding mapping for its token in both scan
directions (the non-overlap conditions of the claim, instantiated to
this token). -/
def tokUniq (cfg : Config) (m : PathMapping) (rem : List Char) : Bool :=
  cfg.mappings.all (fun m' => m' == m ||
    !(m'.to_.isPrefixOf (m.to_ ++ rem) &&
      thBoundary (((m.to_ ++ rem ++ ['"']).drop m'.to_.length).headD '\x00'))) &&
  (if m.is_wsl then
    cfg.mappings.all (fun m' => m' == m ||
      !(m'.is_wsl && m'.from_.isPrefixOf (m.from_ ++ rem) &&
        wslBoundary (((m.from_ ++ rem ++ ['"']).drop m'.from_.length).headD '\x00')))
   else if m.is_unc then
    cfg.mappings.all (fun m' => m' == m ||
      !(m'.is_unc && m'.from_.isPrefixOf (m.from_ ++ rem)))
   else
    cfg.mappings.all (fun m' => m' == m ||
      !(m'.drive == m.drive && !m'.is_unc && !m'.is_wsl &&
        (m'.from_.drop 2).isPrefixOf (m.from_.drop 2 ++ rem))))

/-- A well-formed token: its mapping is in the table, the remainder is
clean, the token is uniquely decided, and the extracted path fits the
4096-byte path buffer. -/
def tokOk (cfg : Config) (m : PathMapping) (rem : List Char) : Bool :=
  decide (m ∈ cfg.mappings) && remOk rem && tokUniq cfg m rem &&
  decide ((m.from_ ++ rem).length ≤ MAX_PATH_LEN - 1)

/-- Well-formedness of a document under a configuration. -/
def wfItems (cfg : Config) : List Item → Bool
  | [] => true
  | .plain s :: d =>
      plainOkC cfg s (renderHost d) && plainOkH cfg s (renderCont d) &&
      wfItems cfg d
  | .tok m rem :: d => tokOk cfg m rem && wfItems cfg d

/-! #### Small helper lemmas -/

/-- `escList` distributes over append. -/
theorem escList_append (esc : Bool) (a b : List Char) :
    escList esc (a ++ b) = escList esc a ++ escList esc b := by
  induction a with
  | nil => rfl
  | cons c t ih => simp [escList, ih]

/-- Without escaping, `escList` is the identity. -/
theorem escList_false (l : List Char) : escList false l = l := by
  induction l with
  | nil => rfl
  | cons c t ih => simp [escList, escSlash, ih]

/-- Clean bytes contain no NUL, so the `strlen` truncation is the
identity. -/
theorem cStrlenTrunc_clean (l : List Char) (h : l.all cleanChar = true) :
    cStrlenTrunc l = l := by
  induction l with
  | nil => rfl
  | cons c t ih =>
    rw [List.all_cons, Bool.and_eq_true] at h
    have hc : (c != '\x00') = true := by
      have := h.1
      simp only [cleanChar, Bool.and_eq_true] at this
      exact this.2
    simp [cStrlenTrunc, List.takeWhile, hc]
    have := ih h.2
    simpa [cStrlenTrunc] using this

/-- The read-direction remainder copy passes a clean remainder through
and stops exactly at the closing quote. -/
theorem copyRemC_clean (rem : List Char) (r : List Char)
    (h : rem.all cleanChar = true) :
    copyRemC (rem ++ '"' :: r) = (rem, '"' :: r) := by
  induction rem with
  | nil => rfl
  | cons c t ih =>
    rw [List.all_cons, Bool.and_eq_true] at h
    have hc := h.1
    simp only [cleanChar, Bool.and_eq_true, bne_iff_ne] at hc
    have hstop : (isJsonDelim c || asciiIsSpace c) = false := by
      simp [Bool.not_eq_true'] at hc ⊢
      exact ⟨hc.1.1.1, hc.1.1.2⟩
    rw [List.cons_append, copyRemC]
    simp only [hstop, Bool.false_eq_true, if_false]
    rw [ih h.2]

/-- The write-direction remainder copy escapes a clean remainder and
stops exactly at the closing quote. -/
theorem copyRemH_clean (esc : Bool) (rem : List Char) (r : List Char)
    (h : rem.all cleanChar = true) :
    copyRemH esc (rem ++ '"' :: r) = (escList esc rem, '"' :: r) := by
  induction rem with
  | nil => rfl
  | cons c t ih =>
    rw [List.all_cons, Bool.and_eq_true] at h
    have hc := h.1
    simp only [cleanChar, Bool.and_eq_true, bne_iff_ne] at hc
    have hstop : (isJsonDelim c || asciiIsSpace c) = false := by
      simp [Bool.not_eq_true'] at hc ⊢
      exact ⟨hc.1.1.1, hc.1.1.2⟩
    rw [List.cons_append, copyRemH]
    simp only [hstop, Bool.false_eq_true, if_false]
    rw [ih h.2, escList]

/-- Extraction inverts host-side escaping: a clean path rendered with
`escList true` (JSON-escaped separators) extracts back to itself,
stopping at the closing quote. -/
theorem extract_escList (s : List Char) : ∀ (b : Nat) (r : List Char),
    s.all cleanChar = true → s.length ≤ b →
    extract_json_path b (escList true s ++ '"' :: r) = (s, '"' :: r) := by
  induction s with
  | nil =>
    intro b r _ _
    cases b <;> rfl
  | cons c t ih =>
    intro b r h hb
    rw [List.all_cons, Bool.and_eq_true] at h
    have hc := h.1
    simp only [cleanChar, Bool.and_eq_true, bne_iff_ne] at hc
    have hnd : isJsonDelim c = false := by
      simpa [Bool.not_eq_true'] using hc.1.1.1
    cases b with
    | zero => simp at hb
    | succ b =>
      by_cases hsl : c = '/'
      · subst hsl
        rw [show escList true ('/' :: t) ++ '"' :: r =
          '\\' :: '\\' :: (escList true t ++ '"' :: r) from rfl]
        rw [extract_json_path]
        simp only [show isJsonDelim '\\' = false from rfl, Bool.false_eq_true,
          if_false, show ('\\' == '\\') = true from rfl, if_true, List.headD,
          List.tail_cons]
        rw [ih b r h.2 (by simpa using Nat.le_of_succ_le_succ hb)]
      · have hesc : escSlash true c = [c] := by
          simp [escSlash, hsl]
        have hb2 : (c == '\\') = false := beq_eq_false_iff_ne.mpr hc.1.2
        rw [show escList true (c :: t) = escSlash true c ++ escList true t
          from rfl, hesc, List.singleton_append, List.cons_append,
          extract_json_path]
        simp only [hnd, Bool.false_eq_true, if_false, hb2]
        rw [ih b r h.2 (by simpa using Nat.le_of_succ_le_succ hb)]

end Ccbox

namespace Ccbox

/-- `find?` returns the unique element satisfying the predicate. -/
theorem find?_first {α : Type} (p : α → Bool) (l : List α) (a : α)
    (ha : a ∈ l) (hpa : p a = true)
    (huniq : ∀ b ∈ l, p b = true → b = a) :
    l.find? p = some a := by
  induction l with
  | nil => cases ha
  | cons x t ih =>
    by_cases hx : p x = true
    · have hxa : x = a := huniq x (List.mem_cons_self x t) hx
      subst hxa
      rw [List.find?, hx]
    · have hax : a ≠ x := fun h => hx (h ▸ hpa)
      have hat : a ∈ t := by
        rcases List.mem_cons.mp ha with h | h
        · exact absurd h hax
        · exact h
      rw [List.find?]
      simp only [Bool.not_eq_true] at hx
      rw [hx]
      exact ih hat (fun b hb hpb => huniq b (List.mem_cons_of_mem x hb) hpb)

/-- A quote-free pattern that prefixes `x ++ '"' :: y` already prefixes
`x` (and fits inside it). -/
theorem isPrefixOf_before_quote (p : List Char) : ∀ (x y : List Char),
    p.all cleanChar = true → p.isPrefixOf (x ++ '"' :: y) = true →
    p.isPrefixOf x = true ∧ p.length ≤ x.length := by
  induction p with
  | nil =>
    intro x y _ _
    exact ⟨by simp [List.isPrefixOf], Nat.zero_le _⟩
  | cons c t ih =>
    intro x y hcl hp
    rw [List.all_cons, Bool.and_eq_true] at hcl
    cases x with
    | nil =>
      exfalso
      rw [List.nil_append, List.isPrefixOf, Bool.and_eq_true] at hp
      have hq : c = '"' := by simpa using hp.1
      have := hcl.1
      rw [hq] at this
      simp [cleanChar, isJsonDelim] at this
    | cons a x' =>
      rw [List.cons_append, List.isPrefixOf, Bool.and_eq_true] at hp
      have ih' := ih x' y hcl.2 hp.2
      constructor
      · rw [List.isPrefixOf, Bool.and_eq_true]
        exact ⟨hp.1, ih'.1⟩
      · simpa using Nat.succ_le_succ ih'.2

/-- Below the quote position, the boundary byte does not depend on what
follows the quote. -/
theorem drop_headD_before_quote : ∀ (x : List Char) (y : List Char) (n : Nat),
    n ≤ x.length →
    ((x ++ '"' :: y).drop n).headD '\x00' =
      ((x ++ ['"']).drop n).headD '\x00' := by
  intro x
  induction x with
  | nil =>
    intro y n hn
    have h0 : n = 0 := Nat.le_zero.mp hn
    subst h0
    rfl
  | cons a x' ih =>
    intro y n hn
    cases n with
    | zero => rfl
    | succ n =>
      rw [List.cons_append, List.drop_succ_cons, List.cons_append,
        List.drop_succ_cons]
      exact ih y n (by simpa using hn)

/-- Appending a cons is never empty. -/
theorem isEmpty_append_cons (x : List Char) (c : Char) (y : List Char) :
    (x ++ c :: y).isEmpty = false := by
  cases x <;> rfl

/-- A member of a valid configuration is a valid mapping. -/
theorem validCfg_mem (cfg : Config) (m : PathMapping)
    (hv : validCfg cfg = true) (hm : m ∈ cfg.mappings) :
    validMapping m = true := by
  rw [validCfg, Bool.and_eq_true] at hv
  exact List.all_eq_true.mp hv.1 m hm

/-- No container prefix of a valid configuration matches at a quote. -/
theorem findToMatch_quote (cfg : Config) (hv : validCfg cfg = true)
    (t : List Char) :
    findToMatch cfg.mappings ('"' :: t) = none := by
  apply List.find?_eq_none.mpr
  intro m hm
  have hvm := validCfg_mem cfg m hv hm
  rw [validMapping, Bool.and_eq_true, Bool.and_eq_true, Bool.and_eq_true,
    Bool.and_eq_true, Bool.and_eq_true] at hvm
  obtain ⟨⟨⟨⟨⟨hne, hhead⟩, _⟩, _⟩, _⟩, _⟩ := hvm
  cases hto : m.to_ with
  | nil => rw [hto] at hne; simp at hne
  | cons c ts =>
    rw [hto] at hhead
    have hc : c = '/' := by simpa using hhead
    subst hc
    simp [List.isPrefixOf]

end Ccbox

namespace Ccbox

/-- Decomposed form of `tokOk`. -/
theorem tokOk_parts (cfg : Config) (m : PathMapping) (rem : List Char)
    (ht : tokOk cfg m rem = true) :
    m ∈ cfg.mappings ∧ remOk rem = true ∧ tokUniq cfg m rem = true ∧
    (m.from_ ++ rem).length ≤ MAX_PATH_LEN - 1 := by
  rw [tokOk, Bool.and_eq_true, Bool.and_eq_true, Bool.and_eq_true] at ht
  exact ⟨of_decide_eq_true ht.1.1.1, ht.1.1.2, ht.1.2, of_decide_eq_true ht.2⟩

/-- The boundary byte after the container prefix of a well-formed token
is `/` or `"`. -/
theorem tok_boundary_to (m : PathMapping) (rem rest : List Char)
    (hrem : remOk rem = true) :
    thBoundary (((m.to_ ++ (rem ++ '"' :: rest)).drop m.to_.length).headD '\x00')
      = true := by
  rw [List.drop_left]
  cases rem with
  | nil => rfl
  | cons c t =>
    rw [remOk, Bool.and_eq_true] at hrem
    have hc : c = '/' := by
      have h2 := hrem.2
      simp only [List.isEmpty_cons, Bool.false_or, List.headD_cons] at h2
      exact eq_of_beq h2
    rw [List.cons_append]
    simp [hc, thBoundary]

/-- The write-direction match loop decides a well-formed token by its
own mapping. -/
theorem findToMatch_tok (cfg : Config) (m : PathMapping) (rem rest : List Char)
    (hv : validCfg cfg = true) (ht : tokOk cfg m rem = true) :
    findToMatch cfg.mappings (m.to_ ++ (rem ++ '"' :: rest)) = some m := by
  obtain ⟨hmem, hrem, huq, _⟩ := tokOk_parts cfg m rem ht
  rw [tokUniq, Bool.and_eq_true] at huq
  apply find?_first
  · exact hmem
  · rw [Bool.and_eq_true]
    constructor
    · exact List.isPrefixOf_iff_prefix.mpr (List.prefix_append _ _)
    · exact tok_boundary_to m rem rest hrem
  · intro m' hm' hp
    by_cases hne : m' = m
    · exact hne
    exfalso
    rw [Bool.and_eq_true] at hp
    have hclean : m'.to_.all cleanChar = true := by
      have hvm := validCfg_mem cfg m' hv hm'
      rw [validMapping, Bool.and_eq_true, Bool.and_eq_true, Bool.and_eq_true,
        Bool.and_eq_true, Bool.and_eq_true] at hvm
      exact hvm.1.1.1.2
    have hassoc : m.to_ ++ (rem ++ '"' :: rest) = (m.to_ ++ rem) ++ '"' :: rest := by
      rw [List.append_assoc]
    rw [hassoc] at hp
    have hpre := isPrefixOf_before_quote m'.to_ (m.to_ ++ rem) rest hclean hp.1
    have hbd : thBoundary ((((m.to_ ++ rem) ++ ['"']).drop m'.to_.length).headD
        '\x00') = true := by
      rw [← drop_headD_before_quote (m.to_ ++ rem) rest m'.to_.length hpre.2]
      exact hp.2
    have huq1 := List.all_eq_true.mp huq.1 m' hm'
    rw [Bool.or_eq_true] at huq1
    rcases huq1 with h | h
    · exact hne (by simpa using h)
    · rw [Bool.not_eq_true'] at h
      rw [hpre.1, hbd] at h
      simp at h

end Ccbox

namespace Ccbox

/-- The boundary byte after a WSL prefix of a well-formed token is `/`
or `"`. -/
theorem tok_boundary_wsl (m : PathMapping) (rem rest : List Char)
    (hrem : remOk rem = true) :
    wslBoundary (((m.from_ ++ (rem ++ '"' :: rest)).drop m.from_.length).headD
      '\x00') = true := by
  rw [List.drop_left]
  cases rem with
  | nil => rfl
  | cons c t =>
    rw [remOk, Bool.and_eq_true] at hrem
    have hc : c = '/' := by
      have h2 := hrem.2
      simp only [List.isEmpty_cons, Bool.false_or, List.headD_cons] at h2
      exact eq_of_beq h2
    rw [List.cons_append]
    simp [hc, wslBoundary]

/-- A mapping of a valid configuration is WSL-kind only if not UNC-kind. -/
theorem valid_wsl_not_unc (m : PathMapping) (hvm : validMapping m = true)
    (hu : m.is_unc = true) : m.is_wsl = false := by
  rcases hb : m.is_wsl
  · rfl
  · exfalso
    rw [validMapping, Bool.and_eq_true, Bool.and_eq_true, Bool.and_eq_true,
      Bool.and_eq_true, Bool.and_eq_true] at hvm
    have hk := hvm.2
    rw [kindOk, hb, hu] at hk
    simp at hk

/-- The Case-1 mapping loop decides a well-formed drive token by its own
mapping (the extracted body is the stripped host prefix plus the
remainder). -/
theorem find_drive (cfg : Config) (m : PathMapping) (rem : List Char)
    (hv : validCfg cfg = true) (ht : tokOk cfg m rem = true)
    (hw : m.is_wsl = false) (hu : m.is_unc = false)
    (c0 : Char) (fr : List Char) (hfrom : m.from_ = c0 :: ':' :: fr) :
    cfg.mappings.find? (fun m' =>
      m'.drive == asciiToLower c0 && !m'.is_unc && !m'.is_wsl &&
      (m'.from_.drop 2).isPrefixOf (m.from_.drop 2 ++ rem)) = some m := by
  obtain ⟨hmem, hrem, huq, _⟩ := tokOk_parts cfg m rem ht
  have hvm := validCfg_mem cfg m hv hmem
  have hdrive : m.drive = asciiToLower c0 := by
    rw [validMapping, Bool.and_eq_true, Bool.and_eq_true, Bool.and_eq_true,
      Bool.and_eq_true, Bool.and_eq_true] at hvm
    have hk := hvm.2
    rw [kindOk, hw, hu] at hk
    simp only [Bool.false_eq_true, if_false] at hk
    rw [hfrom] at hk
    simp only [Bool.and_eq_true] at hk
    have := hk.2
    rw [show nthChar (c0 :: ':' :: fr) 0 = c0 from rfl] at this
    exact eq_of_beq this
  rw [tokUniq, Bool.and_eq_true, hw, hu] at huq
  simp only [Bool.false_eq_true, if_false] at huq
  apply find?_first
  · exact hmem
  · simp only [Bool.and_eq_true]
    refine ⟨⟨⟨by rw [hdrive]; simp, by rw [hu]; rfl⟩, by rw [hw]; rfl⟩, ?_⟩
    exact List.isPrefixOf_iff_prefix.mpr (List.prefix_append _ _)
  · intro m' hm' hp
    by_cases hne : m' = m
    · exact hne
    exfalso
    have huq1 := List.all_eq_true.mp huq.2 m' hm'
    rw [Bool.or_eq_true] at huq1
    rcases huq1 with h | h
    · exact hne (by simpa using h)
    · rw [Bool.not_eq_true'] at h
      rw [← hdrive] at hp
      rw [hp] at h
      simp at h

/-- The Case-2 mapping loop decides a well-formed UNC token by its own
mapping. -/
theorem find_unc (cfg : Config) (m : PathMapping) (rem : List Char)
    (hv : validCfg cfg = true) (ht : tokOk cfg m rem = true)
    (hu : m.is_unc = true) :
    cfg.mappings.find? (fun m' =>
      m'.is_unc && m'.from_.isPrefixOf (m.from_ ++ rem)) = some m := by
  obtain ⟨hmem, hrem, huq, _⟩ := tokOk_parts cfg m rem ht
  have hvm := validCfg_mem cfg m hv hmem
  have hw : m.is_wsl = false := valid_wsl_not_unc m hvm hu
  rw [tokUniq, Bool.and_eq_true, hw, hu] at huq
  simp only [Bool.false_eq_true, if_false, if_true] at huq
  apply find?_first
  · exact hmem
  · rw [Bool.and_eq_true]
    exact ⟨by rw [hu], List.isPrefixOf_iff_prefix.mpr (List.prefix_append _ _)⟩
  · intro m' hm' hp
    by_cases hne : m' = m
    · exact hne
    exfalso
    have huq1 := List.all_eq_true.mp huq.2 m' hm'
    rw [Bool.or_eq_true] at huq1
    rcases huq1 with h | h
    · exact hne (by simpa using h)
    · rw [Bool.not_eq_true'] at h
      rw [hp] at h
      simp at h

/-- The Case-3 mapping loop decides a well-formed WSL token by its own
mapping. -/
theorem find_wsl (cfg : Config) (m : PathMapping) (rem rest : List Char)
    (hv : validCfg cfg = true) (ht : tokOk cfg m rem = true)
    (hw : m.is_wsl = true) :
    cfg.mappings.find? (fun m' =>
      m'.is_wsl && m'.from_.isPrefixOf (m.from_ ++ (rem ++ '"' :: rest)) &&
      wslBoundary (((m.from_ ++ (rem ++ '"' :: rest)).drop
        m'.from_.length).headD '\x00')) = some m := by
  obtain ⟨hmem, hrem, huq, _⟩ := tokOk_parts cfg m rem ht
  rw [tokUniq, Bool.and_eq_true, hw] at huq
  simp only [if_true] at huq
  apply find?_first
  · exact hmem
  · simp only [Bool.and_eq_true]
    refine ⟨⟨by rw [hw],
      List.isPrefixOf_iff_prefix.mpr (List.prefix_append _ _)⟩, ?_⟩
    exact tok_boundary_wsl m rem rest hrem
  · intro m' hm' hp
    by_cases hne : m' = m
    · exact hne
    exfalso
    simp only [Bool.and_eq_true] at hp
    have hclean : m'.from_.all cleanChar = true := by
      have hvm' := validCfg_mem cfg m' hv hm'
      rw [validMapping, Bool.and_eq_true, Bool.and_eq_true, Bool.and_eq_true,
        Bool.and_eq_true, Bool.and_eq_true] at hvm'
      exact hvm'.1.2
    have hassoc : m.from_ ++ (rem ++ '"' :: rest) =
        (m.from_ ++ rem) ++ '"' :: rest := by
      rw [List.append_assoc]
    rw [hassoc] at hp
    have hpre := isPrefixOf_before_quote m'.from_ (m.from_ ++ rem) rest hclean
      hp.1.2
    have hbd : wslBoundary ((((m.from_ ++ rem) ++ ['"']).drop
        m'.from_.length).headD '\x00') = true := by
      rw [← drop_headD_before_quote (m.from_ ++ rem) rest m'.from_.length hpre.2]
      exact hp.2
    have huq1 := List.all_eq_true.mp huq.2 m' hm'
    rw [Bool.or_eq_true] at huq1
    rcases huq1 with h | h
    · exact hne (by simpa using h)
    · rw [Bool.not_eq_true'] at h
      rw [hp.1.1, hpre.1, hbd] at h
      simp at h

end Ccbox

namespace Ccbox

/-- The read-direction scan copies safe plain text verbatim, consuming
one fuel per byte. -/
theorem tcScan_plain (cfg : Config) : ∀ (s rest : List Char) (fuel : Nat),
    plainOkC cfg s rest = true → s.length + rest.length ≤ fuel →
    tcScan cfg fuel (s ++ rest) =
      (s ++ (tcScan cfg (fuel - s.length) rest).1,
       (tcScan cfg (fuel - s.length) rest).2) := by
  intro s
  induction s with
  | nil => intro rest fuel _ _; simp
  | cons c t ih =>
    intro rest fuel h hf
    rw [plainOkC, Bool.and_eq_true, Bool.and_eq_true] at h
    obtain ⟨⟨hnul, hmatch⟩, hrest⟩ := h
    cases fuel with
    | zero => simp at hf
    | succ f =>
      rw [List.cons_append, tcScan]
      have hnul' : (c == '\x00') = false := by
        simpa using hnul
      rw [hnul']
      simp only [Bool.false_eq_true, if_false]
      rw [Bool.not_eq_true'] at hmatch
      rw [tcMatchAt, Bool.or_eq_false_iff, Bool.or_eq_false_iff] at hmatch
      have h1 : case1? cfg (c :: (t ++ rest)) = none :=
        Option.not_isSome_iff_eq_none.mp (by simp [hmatch.1.1])
      have h2 : case2? cfg (c :: (t ++ rest)) = none :=
        Option.not_isSome_iff_eq_none.mp (by simp [hmatch.1.2])
      have h3 : case3? cfg (c :: (t ++ rest)) = none :=
        Option.not_isSome_iff_eq_none.mp (by simp [hmatch.2])
      rw [h1, h2, h3]
      simp only []
      rw [ih rest f hrest (by simp at hf; omega)]
      rw [List.length_cons, Nat.succ_sub_succ, List.cons_append]

/-- The write-direction scan copies safe plain text verbatim, consuming
one fuel per byte. -/
theorem thScan_plain (cfg : Config) : ∀ (s rest : List Char) (fuel : Nat),
    plainOkH cfg s rest = true → s.length + rest.length ≤ fuel →
    thScan cfg fuel (s ++ rest) =
      (s ++ (thScan cfg (fuel - s.length) rest).1,
       (thScan cfg (fuel - s.length) rest).2) := by
  intro s
  induction s with
  | nil => intro rest fuel _ _; simp
  | cons c t ih =>
    intro rest fuel h hf
    rw [plainOkH, Bool.and_eq_true] at h
    obtain ⟨hmatch, hrest⟩ := h
    cases fuel with
    | zero => simp at hf
    | succ f =>
      rw [List.cons_append, thScan]
      rw [Bool.not_eq_true'] at hmatch
      have h1 : findToMatch cfg.mappings (c :: (t ++ rest)) = none :=
        Option.not_isSome_iff_eq_none.mp (by simp [thMatchAt] at hmatch; simp [hmatch])
      rw [h1]
      simp only []
      rw [ih rest f hrest (by simp at hf; omega)]
      rw [List.length_cons, Nat.succ_sub_succ, List.cons_append]

end Ccbox

namespace Ccbox

/-- Case 1 cannot fire on a non-alphabetic head byte. -/
theorem case1?_not_alpha (cfg : Config) (c : Char) (t : List Char)
    (h : asciiIsAlpha c = false) : case1? cfg (c :: t) = none := by
  rw [case1?]
  simp [h]

/-- Case 2 cannot fire unless the head byte is a backslash. -/
theorem case2?_head (cfg : Config) (c : Char) (t : List Char)
    (h : (c == '\\') = false) : case2? cfg (c :: t) = none := by
  rw [case2?]
  simp [h]

/-- Case 3 cannot fire unless the head byte is a slash. -/
theorem case3?_head (cfg : Config) (c : Char) (t : List Char)
    (h : (c == '/') = false) : case3? cfg (c :: t) = none := by
  rw [case3?]
  simp [nthChar, h]

/-- An alphabetic byte is not NUL, slash, backslash or colon. -/
theorem alpha_facts (c : Char) (h : asciiIsAlpha c = true) :
    (c == '\x00') = false ∧ (c == '/') = false ∧ (c == '\\') = false := by
  refine ⟨?_, ?_, ?_⟩
  · by_cases hx : c = '\x00'
    · subst hx; revert h; decide
    · exact beq_eq_false_iff_ne.mpr hx
  · by_cases hx : c = '/'
    · subst hx; revert h; decide
    · exact beq_eq_false_iff_ne.mpr hx
  · by_cases hx : c = '\\'
    · subst hx; revert h; decide
    · exact beq_eq_false_iff_ne.mpr hx

/-- Escaping leaves a non-slash byte alone. -/
theorem escSlash_ne_slash (c : Char) (h : (c == '/') = false) :
    escSlash true c = [c] := by
  rw [escSlash]
  simp [h]

/-- Both scan directions copy a quote byte and recurse. -/
theorem tcScan_quote (cfg : Config) (l : List Char) (f : Nat) :
    tcScan cfg (f + 1) ('"' :: l) =
      ('"' :: (tcScan cfg f l).1, (tcScan cfg f l).2) := by
  rw [tcScan, case1?_not_alpha cfg '"' l (by decide),
    case2?_head cfg '"' l (by decide), case3?_head cfg '"' l (by decide)]
  simp [show ('"' == '\x00') = false from by decide]

/-- The write-direction scan copies a quote byte and recurses. -/
theorem thScan_quote (cfg : Config) (hv : validCfg cfg = true) (l : List Char)
    (f : Nat) :
    thScan cfg (f + 1) ('"' :: l) =
      ('"' :: (thScan cfg f l).1, (thScan cfg f l).2) := by
  rw [thScan, findToMatch_quote cfg hv]

end Ccbox

namespace Ccbox

/-- A list of length at least two starts with its first two bytes. -/
theorem shape2 (l : List Char) (h : 2 ≤ l.length) :
    l = nthChar l 0 :: nthChar l 1 :: l.drop 2 := by
  rcases l with _ | ⟨a, _ | ⟨b, t⟩⟩
  · simp at h
  · simp at h
  · rfl

/-- A list of length at least six starts with its first six bytes. -/
theorem shape6 (l : List Char) (h : 6 ≤ l.length) :
    l = nthChar l 0 :: nthChar l 1 :: nthChar l 2 :: nthChar l 3 ::
      nthChar l 4 :: nthChar l 5 :: l.drop 6 := by
  rcases l with _ | ⟨a, _ | ⟨b, _ | ⟨c, _ | ⟨d, _ | ⟨e, _ | ⟨f, t⟩⟩⟩⟩⟩⟩
  · simp at h
  · simp at h
  · simp at h
  · simp at h
  · simp at h
  · simp at h
  · rfl

/-- Shape of a drive-kind mapping's host form. -/
theorem kindOk_drive_shape (m : PathMapping) (hk : kindOk m = true)
    (hw : m.is_wsl = false) (hu : m.is_unc = false) :
    ∃ c0 fr, m.from_ = c0 :: ':' :: fr ∧ asciiIsAlpha c0 = true ∧
      m.drive = asciiToLower c0 := by
  rw [kindOk, hw, hu] at hk
  simp only [Bool.false_eq_true, if_false] at hk
  rw [Bool.and_eq_true, Bool.and_eq_true, Bool.and_eq_true] at hk
  obtain ⟨⟨⟨ha, hc⟩, hlen⟩, hd⟩ := hk
  have hsh := shape2 m.from_ (of_decide_eq_true hlen)
  rw [eq_of_beq hc] at hsh
  exact ⟨nthChar m.from_ 0, m.from_.drop 2, hsh, ha, eq_of_beq hd⟩

/-- Shape of a UNC-kind mapping's host form. -/
theorem kindOk_unc_shape (m : PathMapping) (hk : kindOk m = true)
    (hw : m.is_wsl = false) (hu : m.is_unc = true) :
    ∃ fr, m.from_ = '/' :: '/' :: fr := by
  rw [kindOk, hw, hu] at hk
  simp only [Bool.false_eq_true, if_false, if_true] at hk
  rw [Bool.and_eq_true, Bool.and_eq_true] at hk
  obtain ⟨⟨h0, h1⟩, hlen⟩ := hk
  have hsh := shape2 m.from_ (of_decide_eq_true hlen)
  rw [eq_of_beq h0, eq_of_beq h1] at hsh
  exact ⟨m.from_.drop 2, hsh⟩

/-- Shape of a WSL-kind mapping's host form. -/
theorem kindOk_wsl_shape (m : PathMapping) (hk : kindOk m = true)
    (hw : m.is_wsl = true) :
    ∃ c5 fr, m.from_ = '/' :: 'm' :: 'n' :: 't' :: '/' :: c5 :: fr ∧
      asciiIsAlpha c5 = true := by
  rw [kindOk, hw] at hk
  simp only [if_true] at hk
  simp only [Bool.and_eq_true] at hk
  obtain ⟨⟨⟨⟨⟨⟨⟨⟨hun, h0⟩, h1⟩, h2⟩, h3⟩, h4⟩, h5⟩, hlen⟩, hd⟩ := hk
  have hsh := shape6 m.from_ (of_decide_eq_true hlen)
  rw [eq_of_beq h0, eq_of_beq h1, eq_of_beq h2, eq_of_beq h3,
    eq_of_beq h4] at hsh
  exact ⟨nthChar m.from_ 5, m.from_.drop 6, hsh, h5⟩

/-- Decomposed form of `validMapping`. -/
theorem validMapping_parts (m : PathMapping) (hvm : validMapping m = true) :
    m.to_.isEmpty = false ∧ m.to_.headD ' ' = '/' ∧ m.to_.all cleanChar = true ∧
    m.from_.isEmpty = false ∧ m.from_.all cleanChar = true ∧ kindOk m = true := by
  rw [validMapping, Bool.and_eq_true, Bool.and_eq_true, Bool.and_eq_true,
    Bool.and_eq_true, Bool.and_eq_true] at hvm
  obtain ⟨⟨⟨⟨⟨h1, h2⟩, h3⟩, h4⟩, h5⟩, h6⟩ := hvm
  exact ⟨by simpa using h1, eq_of_beq h2, h3, by simpa using h4, h5, h6⟩

/-- Escaping cannot shorten a byte list. -/
theorem escList_length (esc : Bool) (l : List Char) :
    l.length ≤ (escList esc l).length := by
  induction l with
  | nil => simp [escList]
  | cons c t ih =>
    rw [escList, List.length_append, List.length_cons, escSlash]
    split
    · simp; omega
    · simp; omega

end Ccbox

namespace Ccbox

/-- The read-direction scan rewrites a drive-token body in one step:
Case 1 fires, the extraction recovers the clean path, the token's own
mapping decides, and the emitted bytes are the container prefix plus the
remainder; scanning resumes at the closing quote. -/
theorem tcScan_body_drive (cfg : Config) (m : PathMapping)
    (rem rest : List Char) (f : Nat)
    (hv : validCfg cfg = true) (ht : tokOk cfg m rem = true)
    (hw : m.is_wsl = false) (hu : m.is_unc = false) :
    tcScan cfg (f + 1) (escList (tokEsc m) (m.from_ ++ rem) ++ '"' :: rest) =
      ((m.to_ ++ rem) ++ (tcScan cfg f ('"' :: rest)).1, true) := by
  obtain ⟨hmem, hremok, huq, hfit⟩ := tokOk_parts cfg m rem ht
  have hvm := validCfg_mem cfg m hv hmem
  obtain ⟨_, _, _, _, hfclean, hk⟩ := validMapping_parts m hvm
  obtain ⟨c0, fr, hfrom, ha, hdrv⟩ := kindOk_drive_shape m hk hw hu
  have hremclean : rem.all cleanChar = true := by
    rw [remOk, Bool.and_eq_true] at hremok
    exact hremok.1
  have hfrclean : fr.all cleanChar = true := by
    rw [hfrom] at hfclean
    simp only [List.all_cons, Bool.and_eq_true] at hfclean
    exact hfclean.2.2
  have hesc : tokEsc m = true := by
    rw [tokEsc, hfrom]
    rfl
  have hns : (c0 == '/') = false := (alpha_facts c0 ha).2.1
  have hL : escList (tokEsc m) (m.from_ ++ rem) ++ '"' :: rest =
      c0 :: ':' :: (escList true (fr ++ rem) ++ '"' :: rest) := by
    rw [hesc, hfrom]
    simp only [List.cons_append, escList, escSlash_ne_slash c0 hns,
      escSlash_ne_slash ':' (by decide)]
    simp
  have hcl : (fr ++ rem).all cleanChar = true := by
    simp [List.all_append, hfrclean, hremclean]
  have hlen45 : (fr ++ rem).length ≤ MAX_PATH_LEN - 1 := by
    rw [hfrom] at hfit
    simp only [List.length_append, List.length_cons] at hfit ⊢
    omega
  have hex : extract_json_path (MAX_PATH_LEN - 1)
      (escList true (fr ++ rem) ++ '"' :: rest) = (fr ++ rem, '"' :: rest) :=
    extract_escList (fr ++ rem) (MAX_PATH_LEN - 1) rest hcl hlen45
  have hdr : m.from_.drop 2 = fr := by
    rw [hfrom]
    rfl
  have hfind := find_drive cfg m rem hv ht hw hu c0 fr hfrom
  rw [hdr] at hfind
  have hflen : m.from_.length - 2 = fr.length := by
    rw [hfrom]
    simp
  have hcase1 : case1? cfg (c0 :: ':' :: (escList true (fr ++ rem) ++ '"' :: rest)) =
      some (m.to_ ++ rem, '"' :: rest) := by
    rw [case1?]
    have hg : (asciiIsAlpha c0 &&
        ((':' :: (escList true (fr ++ rem) ++ '"' :: rest)).headD '\x00' == ':') &&
        !(':' :: (escList true (fr ++ rem) ++ '"' :: rest)).tail.isEmpty) = true := by
      rw [ha]
      simp [isEmpty_append_cons]
    rw [hg]
    simp only [if_true, List.tail_cons, hex, hfind]
    rw [hflen, List.drop_left, cStrlenTrunc_clean rem hremclean]
  rw [hL, tcScan, (alpha_facts c0 ha).1]
  simp only [Bool.false_eq_true, if_false]
  rw [hcase1]

end Ccbox

namespace Ccbox

/-- The read-direction scan rewrites a UNC-token body in one step: Case 1
does not fire (head `\` is not alphabetic), Case 2 fires on the escaped
`\\` pair, extraction recovers the clean path, and the token's own
mapping decides. -/
theorem tcScan_body_unc (cfg : Config) (m : PathMapping)
    (rem rest : List Char) (f : Nat)
    (hv : validCfg cfg = true) (ht : tokOk cfg m rem = true)
    (hw : m.is_wsl = false) (hu : m.is_unc = true) :
    tcScan cfg (f + 1) (escList (tokEsc m) (m.from_ ++ rem) ++ '"' :: rest) =
      ((m.to_ ++ rem) ++ (tcScan cfg f ('"' :: rest)).1, true) := by
  obtain ⟨hmem, hremok, huq, hfit⟩ := tokOk_parts cfg m rem ht
  have hvm := validCfg_mem cfg m hv hmem
  obtain ⟨_, _, _, _, hfclean, hk⟩ := validMapping_parts m hvm
  obtain ⟨fr, hfrom⟩ := kindOk_unc_shape m hk hw hu
  have hremclean : rem.all cleanChar = true := by
    rw [remOk, Bool.and_eq_true] at hremok
    exact hremok.1
  have hesc : tokEsc m = true := by
    rw [tokEsc, hfrom]
    rfl
  have hL : escList (tokEsc m) (m.from_ ++ rem) ++ '"' :: rest =
      '\\' :: '\\' :: ('\\' :: '\\' :: (escList true (fr ++ rem) ++ '"' :: rest)) := by
    rw [hesc, hfrom]
    simp only [List.cons_append, escList]
    rfl
  have hcl : (m.from_ ++ rem).all cleanChar = true := by
    simp [List.all_append, hfclean, hremclean]
  have hE : ('\\' :: '\\' :: ('\\' :: '\\' :: (escList true (fr ++ rem) ++ '"' :: rest))) =
      escList true (m.from_ ++ rem) ++ '"' :: rest := by
    rw [hfrom]
    simp only [List.cons_append, escList]
    rfl
  have hex : extract_json_path (MAX_PATH_LEN - 1)
      ('\\' :: '\\' :: ('\\' :: '\\' :: (escList true (fr ++ rem) ++ '"' :: rest))) =
      (m.from_ ++ rem, '"' :: rest) := by
    rw [hE]
    exact extract_escList (m.from_ ++ rem) (MAX_PATH_LEN - 1) rest hcl hfit
  have hfind := find_unc cfg m rem hv ht hu
  have hcase2 : case2? cfg
      ('\\' :: '\\' :: ('\\' :: '\\' :: (escList true (fr ++ rem) ++ '"' :: rest))) =
      some (m.to_ ++ rem, '"' :: rest) := by
    rw [case2?]
    simp only [List.headD_cons]
    rw [show (('\\' == '\\') && ('\\' == '\\')) = true from rfl]
    simp only [if_true, hex, hfind]
    rw [List.drop_left, cStrlenTrunc_clean rem hremclean]
  rw [hL, tcScan]
  rw [show ('\\' == '\x00') = false from rfl]
  simp only [Bool.false_eq_true, if_false]
  rw [case1?_not_alpha cfg '\\' _ (by decide), hcase2]

end Ccbox

namespace Ccbox

/-- The read-direction scan rewrites a WSL-token body in one step: Cases
1 and 2 do not fire at the head `/`, Case 3 fires on the `/mnt/X`
prefix, and the remainder copy stops at the closing quote. -/
theorem tcScan_body_wsl (cfg : Config) (m : PathMapping)
    (rem rest : List Char) (f : Nat)
    (hv : validCfg cfg = true) (ht : tokOk cfg m rem = true)
    (hw : m.is_wsl = true) :
    tcScan cfg (f + 1) (escList (tokEsc m) (m.from_ ++ rem) ++ '"' :: rest) =
      ((m.to_ ++ rem) ++ (tcScan cfg f ('"' :: rest)).1, true) := by
  obtain ⟨hmem, hremok, huq, hfit⟩ := tokOk_parts cfg m rem ht
  have hvm := validCfg_mem cfg m hv hmem
  obtain ⟨_, _, _, _, hfclean, hk⟩ := validMapping_parts m hvm
  obtain ⟨c5, fr, hfrom, ha5⟩ := kindOk_wsl_shape m hk hw
  have hremclean : rem.all cleanChar = true := by
    rw [remOk, Bool.and_eq_true] at hremok
    exact hremok.1
  have hesc : tokEsc m = false := by
    rw [tokEsc, hfrom]
    rfl
  have hL : escList (tokEsc m) (m.from_ ++ rem) ++ '"' :: rest =
      '/' :: 'm' :: 'n' :: 't' :: '/' :: c5 :: ((fr ++ rem) ++ '"' :: rest) := by
    rw [hesc, escList_false, hfrom]
    simp
  have hLIT : ('/' :: 'm' :: 'n' :: 't' :: '/' :: c5 :: ((fr ++ rem) ++ '"' :: rest)) =
      m.from_ ++ (rem ++ '"' :: rest) := by
    rw [hfrom]
    simp
  have hfind := find_wsl cfg m rem rest hv ht hw
  have hcase3 : case3? cfg
      ('/' :: 'm' :: 'n' :: 't' :: '/' :: c5 :: ((fr ++ rem) ++ '"' :: rest)) =
      some (m.to_ ++ rem, '"' :: rest) := by
    rw [case3?]
    have h6 : decide (6 <
        ('/' :: 'm' :: 'n' :: 't' :: '/' :: c5 :: ((fr ++ rem) ++ '"' :: rest)).length)
        = true := by
      apply decide_eq_true
      simp only [List.length_cons, List.length_append]
      omega
    have hg : (nthChar ('/' :: 'm' :: 'n' :: 't' :: '/' :: c5 ::
          ((fr ++ rem) ++ '"' :: rest)) 0 == '/' &&
        nthChar ('/' :: 'm' :: 'n' :: 't' :: '/' :: c5 ::
          ((fr ++ rem) ++ '"' :: rest)) 1 == 'm' &&
        nthChar ('/' :: 'm' :: 'n' :: 't' :: '/' :: c5 ::
          ((fr ++ rem) ++ '"' :: rest)) 2 == 'n' &&
        nthChar ('/' :: 'm' :: 'n' :: 't' :: '/' :: c5 ::
          ((fr ++ rem) ++ '"' :: rest)) 3 == 't' &&
        nthChar ('/' :: 'm' :: 'n' :: 't' :: '/' :: c5 ::
          ((fr ++ rem) ++ '"' :: rest)) 4 == '/' &&
        asciiIsAlpha (nthChar ('/' :: 'm' :: 'n' :: 't' :: '/' :: c5 ::
          ((fr ++ rem) ++ '"' :: rest)) 5) &&
        decide (6 < ('/' :: 'm' :: 'n' :: 't' :: '/' :: c5 ::
          ((fr ++ rem) ++ '"' :: rest)).length)) = true := by
      rw [show nthChar ('/' :: 'm' :: 'n' :: 't' :: '/' :: c5 ::
          ((fr ++ rem) ++ '"' :: rest)) 5 = c5 from rfl, ha5, h6]
      rfl
    rw [hg]
    simp only [if_true]
    rw [hLIT, hfind]
    simp only []
    rw [List.drop_left, copyRemC_clean rem rest hremclean]
  rw [hL, tcScan]
  rw [show ('/' == '\x00') = false from rfl]
  simp only [Bool.false_eq_true, if_false]
  rw [case1?_not_alpha cfg '/' _ (by decide), case2?_head cfg '/' _ (by decide),
    hcase3]

end Ccbox

namespace Ccbox

/-- The read-direction scan rewrites a well-formed token body of any
kind in one step. -/
theorem tcScan_body (cfg : Config) (m : PathMapping)
    (rem rest : List Char) (f : Nat)
    (hv : validCfg cfg = true) (ht : tokOk cfg m rem = true) :
    tcScan cfg (f + 1) (escList (tokEsc m) (m.from_ ++ rem) ++ '"' :: rest) =
      ((m.to_ ++ rem) ++ (tcScan cfg f ('"' :: rest)).1, true) := by
  rcases hw : m.is_wsl
  · rcases hu : m.is_unc
    · exact tcScan_body_drive cfg m rem rest f hv ht hw hu
    · exact tcScan_body_unc cfg m rem rest f hv ht hw hu
  · exact tcScan_body_wsl cfg m rem rest f hv ht hw

/-- A whole quoted host token is rewritten to its quoted container form
in three fuel steps (open quote, body, close quote), setting the
transform flag. -/
theorem tcScan_tok (cfg : Config) (m : PathMapping) (rem rest : List Char)
    (f : Nat) (hv : validCfg cfg = true) (ht : tokOk cfg m rem = true) :
    tcScan cfg (f + 3) (renderHostTok m rem ++ rest) =
      ('"' :: (m.to_ ++ rem) ++ '"' :: (tcScan cfg f rest).1, true) := by
  have hL : renderHostTok m rem ++ rest =
      '"' :: (escList (tokEsc m) (m.from_ ++ rem) ++ '"' :: rest) := by
    rw [renderHostTok]
    simp
  rw [hL, show f + 3 = (f + 2) + 1 from rfl, tcScan_quote,
    show f + 2 = (f + 1) + 1 from rfl,
    tcScan_body cfg m rem rest (f + 1) hv ht, tcScan_quote]
  simp

/-- The write-direction scan rewrites a whole quoted container token to
its quoted host form (with the token's separator convention) in three
fuel steps, setting the transform flag. -/
theorem thScan_tok (cfg : Config) (m : PathMapping) (rem rest : List Char)
    (f : Nat) (hv : validCfg cfg = true) (ht : tokOk cfg m rem = true) :
    thScan cfg (f + 3) (renderContTok m rem ++ rest) =
      ('"' :: escList (tokEsc m) (m.from_ ++ rem) ++ '"' :: (thScan cfg f rest).1,
        true) := by
  obtain ⟨hmem, hremok, huq, hfit⟩ := tokOk_parts cfg m rem ht
  have hvm := validCfg_mem cfg m hv hmem
  obtain ⟨hne, hhd, htclean, _, _, _⟩ := validMapping_parts m hvm
  have hremclean : rem.all cleanChar = true := by
    rw [remOk, Bool.and_eq_true] at hremok
    exact hremok.1
  obtain ⟨ts, hto⟩ : ∃ ts, m.to_ = '/' :: ts := by
    cases hc : m.to_ with
    | nil => rw [hc] at hne; simp at hne
    | cons a t =>
      rw [hc] at hhd
      simp only [List.headD_cons] at hhd
      exact ⟨t, by rw [hhd]⟩
  have hL : renderContTok m rem ++ rest =
      '"' :: ('/' :: (ts ++ (rem ++ '"' :: rest))) := by
    rw [renderContTok, hto]
    simp
  have hInner : ('/' :: (ts ++ (rem ++ '"' :: rest))) =
      m.to_ ++ (rem ++ '"' :: rest) := by
    rw [hto]
    rfl
  have hfind := findToMatch_tok cfg m rem rest hv ht
  rw [hL, show f + 3 = (f + 2) + 1 from rfl, thScan_quote cfg hv, thScan]
  rw [hInner, hfind]
  simp only []
  rw [show (useBackslashOf m.from_ || isUncOrigOf m.from_) = tokEsc m from rfl]
  rw [List.drop_left, copyRemH_clean (tokEsc m) rem rest hremclean]
  simp only []
  rw [thScan_quote cfg hv]
  simp [escList_append]

end Ccbox

namespace Ccbox

/-- Read-direction scan of a whole well-formed document: the host
rendering scans to the container rendering, and the transform flag is
set exactly when the document contains a token. -/
theorem tcScan_doc (cfg : Config) (hv : validCfg cfg = true) :
    ∀ (d : List Item) (fuel : Nat), wfItems cfg d = true →
    (renderHost d).length ≤ fuel →
    tcScan cfg fuel (renderHost d) = (renderCont d, hasTok d) := by
  intro d
  induction d with
  | nil =>
    intro fuel _ _
    cases fuel <;> rfl
  | cons it d ih =>
    intro fuel hwf hlen
    cases it with
    | plain s =>
      rw [wfItems, Bool.and_eq_true, Bool.and_eq_true] at hwf
      obtain ⟨⟨hC, _⟩, hwf'⟩ := hwf
      rw [renderHost] at hlen ⊢
      rw [List.length_append] at hlen
      rw [tcScan_plain cfg s (renderHost d) fuel hC (by omega)]
      rw [ih (fuel - s.length) hwf' (by omega)]
      rw [renderCont, hasTok]
    | tok m rem =>
      rw [wfItems, Bool.and_eq_true] at hwf
      obtain ⟨htok, hwf'⟩ := hwf
      have hmem := (tokOk_parts cfg m rem htok).1
      have hvm := validCfg_mem cfg m hv hmem
      have hfne := (validMapping_parts m hvm).2.2.2.1
      have hfpos : 1 ≤ m.from_.length := by
        cases hf : m.from_ with
        | nil => rw [hf] at hfne; simp at hfne
        | cons a t => exact Nat.succ_le_succ (Nat.zero_le _)
      have hbody := escList_length (tokEsc m) (m.from_ ++ rem)
      rw [renderHost, List.length_append, renderHostTok] at hlen
      simp only [List.length_cons, List.length_append] at hlen hbody
      have hfe : fuel = (fuel - 3) + 3 := by omega
      rw [renderHost, hfe, tcScan_tok cfg m rem (renderHost d) (fuel - 3) hv htok,
        ih (fuel - 3) hwf' (by omega)]
      rw [renderCont, renderContTok, hasTok]
      simp

/-- Write-direction scan of a whole well-formed document: the container
rendering scans back to the host rendering. -/
theorem thScan_doc (cfg : Config) (hv : validCfg cfg = true) :
    ∀ (d : List Item) (fuel : Nat), wfItems cfg d = true →
    (renderCont d).length ≤ fuel →
    thScan cfg fuel (renderCont d) = (renderHost d, hasTok d) := by
  intro d
  induction d with
  | nil =>
    intro fuel _ _
    cases fuel <;> rfl
  | cons it d ih =>
    intro fuel hwf hlen
    cases it with
    | plain s =>
      rw [wfItems, Bool.and_eq_true, Bool.and_eq_true] at hwf
      obtain ⟨⟨_, hH⟩, hwf'⟩ := hwf
      rw [renderCont] at hlen ⊢
      rw [List.length_append] at hlen
      rw [thScan_plain cfg s (renderCont d) fuel hH (by omega)]
      rw [ih (fuel - s.length) hwf' (by omega)]
      rw [renderHost, hasTok]
    | tok m rem =>
      rw [wfItems, Bool.and_eq_true] at hwf
      obtain ⟨htok, hwf'⟩ := hwf
      have hmem := (tokOk_parts cfg m rem htok).1
      have hvm := validCfg_mem cfg m hv hmem
      have htne := (validMapping_parts m hvm).1
      have htpos : 1 ≤ m.to_.length := by
        cases hf : m.to_ with
        | nil => rw [hf] at htne; simp at htne
        | cons a t => exact Nat.succ_le_succ (Nat.zero_le _)
      rw [renderCont, List.length_append, renderContTok] at hlen
      simp only [List.length_cons, List.length_append] at hlen
      have hfe : fuel = (fuel - 3) + 3 := by omega
      rw [renderCont, hfe, thScan_tok cfg m rem (renderCont d) (fuel - 3) hv htok,
        ih (fuel - 3) hwf' (by omega)]
      rw [renderHost, renderHostTok, hasTok]
      simp

/-- A token-free document renders identically in both conventions. -/
theorem render_eq_of_no_tok : ∀ (d : List Item), hasTok d = false →
    renderHost d = renderCont d := by
  intro d
  induction d with
  | nil => intro _; rfl
  | cons it d ih =>
    intro h
    cases it with
    | plain s =>
      rw [hasTok] at h
      rw [renderHost, renderCont, ih h]
    | tok m rem =>
      rw [hasTok] at h
      simp at h

/-- A document with a token renders non-empty in both conventions. -/
theorem render_nonempty_of_tok : ∀ (d : List Item), hasTok d = true →
    (renderHost d).isEmpty = false ∧ (renderCont d).isEmpty = false := by
  intro d
  induction d with
  | nil => intro h; simp [hasTok] at h
  | cons it d ih =>
    intro h
    cases it with
    | plain s =>
      rw [hasTok] at h
      obtain ⟨h1, h2⟩ := ih h
      rw [renderHost, renderCont]
      cases s with
      | nil =>
        simp only [List.nil_append]
        exact ⟨h1, h2⟩
      | cons a t => constructor <;> rfl
    | tok m rem =>
      rw [renderHost, renderCont, renderHostTok, renderContTok]
      constructor <;> rfl

end Ccbox

namespace Ccbox

/-- A concrete well-formed document: plain JSON text, one drive token
under the `C:/a -> /cc` mapping, closing plain text. -/
def docW : List Item :=
  [Item.plain "\x7b\"cwd\":".toList,
   Item.tok (mk_mapping "C:/a".toList "/cc".toList) "/z".toList,
   Item.plain "\x7d".toList]

/-- C1: for a configuration of valid, non-overlapping mappings (no
directory mappings) and a buffer consisting only of well-formed quoted
host path tokens of the configuration (JSON-escaped `\\` separators for
drive and UNC forms) interleaved with transform-free plain text, and
with both renderings within the 4-MiB transform headroom of each other,
the write-direction content transform undoes the read-direction content
transform: to-host(to-container(b)) = b. -/
theorem c1_roundtrip (cfg : Config) (d : List Item)
    (hv : validCfg cfg = true) (hwf : wfItems cfg d = true)
    (hb1 : (renderCont d).length < (renderHost d).length + TRANSFORM_HEADROOM)
    (hb2 : (renderHost d).length < (renderCont d).length + TRANSFORM_HEADROOM) :
    toHostEff cfg (toContainerEff cfg (renderHost d)) = renderHost d := by
  have hdm : cfg.dirMappings.isEmpty = true := by
    have h := hv
    rw [validCfg, Bool.and_eq_true] at h
    exact h.2
  cases hne : cfg.mappings.isEmpty with
  | true =>
    have hC : transform_to_container_alloc cfg (renderHost d) = none := by
      rw [transform_to_container_alloc, hne]
      simp
    have hH : transform_to_host_alloc cfg (renderHost d) = none := by
      rw [transform_to_host_alloc, hne]
      simp
    rw [toContainerEff, hC, Option.getD_none, toHostEff, hH, Option.getD_none]
  | false =>
    cases hbe : (renderHost d).isEmpty with
    | true =>
      have hC : transform_to_container_alloc cfg (renderHost d) = none := by
        rw [transform_to_container_alloc, hbe]
        simp
      have hH : transform_to_host_alloc cfg (renderHost d) = none := by
        rw [transform_to_host_alloc, hbe]
        simp
      rw [toContainerEff, hC, Option.getD_none, toHostEff, hH, Option.getD_none]
    | false =>
      have hMC := tcScan_doc cfg hv d (renderHost d).length hwf le_rfl
      have hADMc : apply_dirmap cfg true (renderCont d) = none := by
        rw [apply_dirmap, hdm]
        simp
      have hADMh : apply_dirmap cfg false (renderHost d) = none := by
        rw [apply_dirmap, hdm]
        simp
      cases htok : hasTok d with
      | true =>
        rw [htok] at hMC
        have hC : transform_to_container_alloc cfg (renderHost d) =
            some (renderCont d) := by
          rw [transform_to_container_alloc, hbe, hne]
          simp only [Bool.or_self, Bool.false_eq_true, if_false]
          simp only [hMC, Bool.not_true, Bool.false_eq_true, if_false]
          rw [if_neg (by omega :
            ¬((renderHost d).length + TRANSFORM_HEADROOM ≤ (renderCont d).length))]
          rw [hADMc]
        have hcne := (render_nonempty_of_tok d htok).2
        have hMH := thScan_doc cfg hv d (renderCont d).length hwf le_rfl
        rw [htok] at hMH
        have hH : transform_to_host_alloc cfg (renderCont d) =
            some (renderHost d) := by
          rw [transform_to_host_alloc, hcne, hne]
          simp only [Bool.or_self, Bool.false_eq_true, if_false]
          simp only [hMH, Bool.not_true, Bool.false_eq_true, if_false]
          rw [if_neg (by omega :
            ¬((renderCont d).length + TRANSFORM_HEADROOM ≤ (renderHost d).length))]
          rw [hADMh]
        rw [toContainerEff, hC, Option.getD_some, toHostEff, hH, Option.getD_some]
      | false =>
        rw [htok] at hMC
        have hEq := render_eq_of_no_tok d htok
        have hC : transform_to_container_alloc cfg (renderHost d) = none := by
          rw [transform_to_container_alloc, hbe, hne]
          simp only [Bool.or_self, Bool.false_eq_true, if_false]
          simp only [hMC, Bool.not_false, if_true]
        have hMH := thScan_doc cfg hv d (renderHost d).length hwf (by rw [hEq])
        rw [htok, ← hEq] at hMH
        have hH : transform_to_host_alloc cfg (renderHost d) = none := by
          rw [transform_to_host_alloc, hbe, hne]
          simp only [Bool.or_self, Bool.false_eq_true, if_false]
          simp only [hMH, Bool.not_false, if_true]
        rw [toContainerEff, hC, Option.getD_none, toHostEff, hH, Option.getD_none]

/-- Witness for C1 at the concrete configuration `cfgR` and document
`docW`: every hypothesis holds by evaluation and the round trip returns
the host rendering unchanged. -/
theorem c1_roundtrip_witness :
    validCfg cfgR = true ∧ wfItems cfgR docW = true ∧
    (renderCont docW).length < (renderHost docW).length + TRANSFORM_HEADROOM ∧
    (renderHost docW).length < (renderCont docW).length + TRANSFORM_HEADROOM ∧
    toHostEff cfgR (toContainerEff cfgR (renderHost docW)) = renderHost docW :=
  ⟨by decide, by decide, by decide, by decide,
    c1_roundtrip cfgR docW (by decide) (by decide) (by decide) (by decide)⟩

end Ccbox
